import Mathlib

/-
Shallow embedding of the advanced-staking blueprint (src/src/lib.rs).

Modelling conventions:
- Scrypto Decimal is a fixed-point signed integer with 18 decimal places
  (a value x is stored as x * 10^18). It is modelled here as an unbounded
  integer holding the scaled representation; dMul and dDiv below are the
  fixed-point multiplication and division, which truncate toward zero as
  the i192 arithmetic of the source does. Overflow of the i192 range is
  not modelled.
- Instant is modelled as an integer count of seconds since the unix epoch;
  Instant.add_days d adds d * 86400 seconds.
- ResourceAddress is modelled as a natural number.
- KeyValueStore and NonFungible record stores are modelled as functions into
  Option; insertion overwrites, as in the source.
- A Rust panic or a failed assert aborts the whole transaction; every
  operation therefore returns an Option, with none for an aborted call.
- Buckets of a fungible resource are modelled by their amount; proofs of a
  staking ID are modelled by the local id of the record.
-/

namespace staking

abbrev Addr := Nat
abbrev Instant := Int
abbrev Dec := Int

/-- Scale of the fixed-point Decimal type: 18 decimal places. -/
def decScale : Int := 10 ^ 18

/-- Fixed-point multiplication of two scaled decimals (truncates toward
zero, like the integer arithmetic of the source). -/
def dMul (a b : Dec) : Dec := Int.tdiv (a * b) decScale

/-- Fixed-point division of two scaled decimals (truncates toward zero). -/
def dDiv (a b : Dec) : Dec := Int.tdiv (a * decScale) b

/-- Conversion of an integer to a scaled decimal (Decimal::from). -/
def decOf (n : Int) : Dec := n * decScale

/-- Lock structure, holding the information about locking options of a token. -/
structure Lock where
  payment : Dec
  duration : Int
deriving DecidableEq

/-- Stakable unit structure: per-asset data kept by the component. The
rewards field is the period-to-frozen-rate key value store. -/
structure StakableUnit where
  address : Addr
  staked_amount : Dec
  vault : Dec
  reward_amount : Dec
  lock : Lock
  rewards : Int → Option Dec

/-- Staking ID record data (the non fungible data of a position). -/
structure Id where
  amounts_staked : List Dec
  amounts_locked : List Dec
  next_period : Int
  locked_until : List (Option Instant)
deriving DecidableEq

/-- Unstake receipt data. -/
structure UnstakeReceipt where
  address : Addr
  amount : Dec
  redemption_time : Instant
deriving DecidableEq

/-- Stake transfer receipt data: only an address and an amount, no time field. -/
structure StakeTransferReceipt where
  address : Addr
  amount : Dec
deriving DecidableEq

/-- The non-fungible data schema a resource manager is registered with at
creation. The ledger validates every minted non-fungible's data against the
schema the manager was created with; a mint whose data is of a different
shape fails validation and aborts the transaction. -/
inductive NFSchema where
  | unstakeReceipt
  | stakeTransferReceipt
deriving DecidableEq

/-- The component state of the Staking blueprint. The
stake_transfer_receipt_schema field records the data schema the stake
transfer receipt resource manager was registered with in the constructor
(the source builds that manager with new_integer_non_fungible over the
UnstakeReceipt type); no method ever changes it. The unstake receipt
manager is registered with the UnstakeReceipt schema it also mints, so no
field is needed for it. -/
structure Staking where
  period_interval : Int
  next_period : Instant
  current_period : Int
  max_claim_delay : Int
  max_unstaking_delay : Int
  unstake_delay : Int
  stake_transfer_receipt_counter : Nat
  unstake_receipt_counter : Nat
  id_counter : Nat
  reward_vault : Dec
  stakes : Addr → Option StakableUnit
  stakables : List Addr
  dao_controlled : Bool
  ids : Nat → Option Id
  unstake_receipts : Nat → Option UnstakeReceipt
  stake_transfer_receipts : Nat → Option StakeTransferReceipt
  stake_transfer_receipt_schema : NFSchema

/-- Constructor (the new function): initial component state. The stake
transfer receipt resource manager is created with the UnstakeReceipt data
schema (the source instantiates the builder with the UnstakeReceipt type),
although the data the component later mints through it is a
StakeTransferReceipt. -/
def Staking.new (now : Instant) (rewards : Dec) (period_interval : Int)
    (dao_controlled : Bool) (max_unstaking_delay : Int) : Staking where
  period_interval := period_interval
  next_period := now + period_interval * 86400
  current_period := 0
  max_claim_delay := 5
  max_unstaking_delay := max_unstaking_delay
  unstake_delay := 7
  stake_transfer_receipt_counter := 0
  unstake_receipt_counter := 0
  id_counter := 0
  reward_vault := rewards
  stakes := fun _ => none
  stakables := []
  dao_controlled := dao_controlled
  ids := fun _ => none
  unstake_receipts := fun _ => none
  stake_transfer_receipts := fun _ => none
  stake_transfer_receipt_schema := NFSchema.unstakeReceipt

/-- The loop body of update_period: for every listed stakable, look the unit
up (unwrap: none when absent) and insert the frozen rate for period p into
its rewards store. -/
def freezeRates (p : Int) (l : List Addr) (m : Addr → Option StakableUnit) :
    Option (Addr → Option StakableUnit) :=
  match l with
  | [] => some m
  | a :: rest =>
    match m a with
    | none => none
    | some u =>
      let rate : Dec := if 0 < u.staked_amount then dDiv u.reward_amount u.staked_amount else 0
      freezeRates p rest (fun k =>
        if k = a then
          some { u with rewards := fun q => if q = p then some rate else u.rewards q }
        else m k)

/-- The update_period method. The source divides the overdue seconds, as a
Decimal, by Decimal::from(period_interval) * 86400, floors the quotient and
converts it to an integer; the division panics when the interval is zero.
When now is at or after next_period, every stakable freezes its rate for the
current period, the current period is incremented and the boundary jumps by
(1 + extra) intervals. -/
def update_period (now : Instant) (s : Staking) : Option Staking :=
  if s.period_interval * 86400 = 0 then none
  else
    let divisor : Dec := dMul (decOf s.period_interval) (decOf 86400)
    let quotient : Dec := dDiv (decOf (now - s.next_period)) divisor
    let extra_periods : Int := Int.fdiv quotient decScale
    if s.next_period ≤ now then
      match freezeRates s.current_period s.stakables s.stakes with
      | none => none
      | some stakes1 =>
        some { s with
          stakes := stakes1
          current_period := s.current_period + 1
          next_period := s.next_period + (1 + extra_periods) * (s.period_interval * 86400) }
    else some s

/-- The check_indexes helper: first update the period when due, then extend
the amounts_staked and locked_until vectors of the given position to the
current registry size. The amounts_locked vector is not touched by the
source. The length difference is a usize subtraction in the source, which
panics when the position vector is longer than the registry. -/
def check_indexes (now : Instant) (id : Nat) (s : Staking) : Option Staking :=
  let step1 : Option Staking :=
    if s.next_period ≤ now then update_period now s else some s
  match step1 with
  | none => none
  | some s1 =>
    match s1.ids id with
    | none => none
    | some d =>
      if d.amounts_staked.length = s1.stakables.length then some s1
      else if s1.stakables.length < d.amounts_staked.length then none
      else
        let n := s1.stakables.length - d.amounts_staked.length
        let d1 : Id := { d with
          amounts_staked := d.amounts_staked ++ List.replicate n 0
          locked_until := d.locked_until ++ List.replicate n none }
        some { s1 with ids := fun k => if k = id then some d1 else s1.ids k }

/-- The iter().position() helper of the source: index of the first
occurrence of an address in the stakables list. -/
def position (a : Addr) : List Addr → Option Nat
  | [] => none
  | b :: rest => if b = a then some 0 else (position a rest).map (· + 1)

/-- Output of start_unstake: either a stake transfer receipt or an unstake
receipt, mirroring the two mint branches of the source. -/
inductive ReceiptOut where
  | transfer (r : StakeTransferReceipt)
  | unstake (r : UnstakeReceipt)
deriving DecidableEq

/-- Amount recorded in a start_unstake output receipt. -/
def ReceiptOut.amount : ReceiptOut → Dec
  | .transfer r => r.amount
  | .unstake r => r.amount

/-- Address recorded in a start_unstake output receipt. -/
def ReceiptOut.address : ReceiptOut → Addr
  | .transfer r => r.address
  | .unstake r => r.address

/-- The create_id method: mint a fresh position sized to the registry, with
the claim cursor set to current_period + 1. Returns the new local id. -/
def create_id (s : Staking) : Staking × Nat :=
  let c := s.id_counter + 1
  let d : Id :=
    { amounts_staked := List.replicate s.stakables.length 0
      amounts_locked := List.replicate s.stakables.length 0
      next_period := s.current_period + 1
      locked_until := List.replicate s.stakables.length none }
  ({ s with
      id_counter := c
      ids := fun k => if k = c then some d else s.ids k }, c)

/-- The stake method. The bucket argument is the amount of the requested
asset supplied (none when no bucket is passed); the transfer receipt
argument is the local id of a live stake transfer receipt to merge and burn. -/
def stake (now : Instant) (address : Addr) (stake_bucket : Option Dec) (id : Nat)
    (stake_transfer_receipt : Option Nat) (s : Staking) : Option Staking :=
  match check_indexes now id s with
  | none => none
  | some s1 =>
  match s1.ids id with
  | none => none
  | some d =>
  match position address s1.stakables with
  | none => none
  | some index =>
  if ¬ (s1.current_period ≤ d.next_period) then none
  else
    match s1.stakes address with
    | none => none
    | some u =>
      let bucket_amount : Dec := stake_bucket.getD 0
      let receipt_step : Option (Dec × (Nat → Option StakeTransferReceipt)) :=
        match stake_transfer_receipt with
        | none => some (0, s1.stake_transfer_receipts)
        | some rid =>
          match s1.stake_transfer_receipts rid with
          | none => none
          | some r =>
            if r.address = address then
              some (r.amount, fun k => if k = rid then none else s1.stake_transfer_receipts k)
            else none
      match receipt_step with
      | none => none
      | some (receipt_amount, receipts1) =>
        let stake_amount : Dec := bucket_amount + receipt_amount
        let staked1 := d.amounts_staked.set index (d.amounts_staked.getD index 0 + stake_amount)
        let u1 : StakableUnit :=
          { u with
            vault := u.vault + bucket_amount
            staked_amount := u.staked_amount + stake_amount }
        let d1 : Id := { d with amounts_staked := staked1, next_period := s1.current_period + 1 }
        some { s1 with
          stakes := fun k => if k = address then some u1 else s1.stakes k
          stake_transfer_receipts := receipts1
          ids := fun k => if k = id then some d1 else s1.ids k }

/-- The start_unstake method. An over-large or unstake_all request is clamped
to the full staked amount; the position is debited immediately and a
transfer receipt or an unstake receipt is minted, at the choice of the
caller. The transfer-mode mint goes through the stake transfer receipt
resource manager, whose registered data schema must match the minted
StakeTransferReceipt data or the mint fails validation and the call
aborts. -/
def start_unstake (now : Instant) (id : Nat) (address : Addr) (unstake_amount : Dec)
    (unstake_all : Bool) (stake_transfer : Bool) (s : Staking) :
    Option (Staking × ReceiptOut) :=
  match check_indexes now id s with
  | none => none
  | some s1 =>
  match s1.ids id with
  | none => none
  | some d =>
  match position address s1.stakables with
  | none => none
  | some index =>
  let staked := d.amounts_staked
  let locked := d.locked_until
  if ¬ (0 < staked.getD index 0) then none
  else
    let lock_ok : Bool :=
      match locked.getD index none with
      | some t => decide (t ≤ now)
      | none => true
    if ¬ (lock_ok = true) then none
    else
      match s1.stakes address with
      | none => none
      | some u =>
        let amount0 : Dec := if unstake_all then staked.getD index 0 else unstake_amount
        let amount : Dec := if staked.getD index 0 ≤ amount0 then staked.getD index 0 else amount0
        let staked1 : List Dec :=
          if staked.getD index 0 ≤ amount0 then staked.set index 0
          else staked.set index (staked.getD index 0 - amount0)
        let u1 : StakableUnit := { u with staked_amount := u.staked_amount - amount }
        let s2 : Staking :=
          { s1 with
            stakes := fun k => if k = address then some u1 else s1.stakes k
            ids := fun k => if k = id then some { d with amounts_staked := staked1 } else s1.ids k }
      if stake_transfer then
        let c := s2.stake_transfer_receipt_counter + 1
        let r : StakeTransferReceipt := { address := address, amount := amount }
        if s2.stake_transfer_receipt_schema = NFSchema.stakeTransferReceipt then
          some ({ s2 with
            stake_transfer_receipt_counter := c
            stake_transfer_receipts := fun k => if k = c then some r else s2.stake_transfer_receipts k },
            ReceiptOut.transfer r)
        else none
      else
        let c := s2.unstake_receipt_counter + 1
        let r : UnstakeReceipt :=
          { address := address, amount := amount
            redemption_time := now + s2.unstake_delay * 86400 }
        some ({ s2 with
          unstake_receipt_counter := c
          unstake_receipts := fun k => if k = c then some r else s2.unstake_receipts k },
          ReceiptOut.unstake r)

/-- The finish_unstake method: given the local id of a live unstake receipt,
fail before the redemption time, otherwise burn the receipt and take the
recorded amount of the recorded asset from its vault. -/
def finish_unstake (now : Instant) (rid : Nat) (s : Staking) :
    Option (Staking × (Addr × Dec)) :=
  match s.unstake_receipts rid with
  | none => none
  | some r =>
    if ¬ (r.redemption_time ≤ now) then none
    else
      match s.stakes r.address with
      | none => none
      | some u =>
        if u.vault < r.amount then none
        else
          some ({ s with
            unstake_receipts := fun k => if k = rid then none else s.unstake_receipts k
            stakes := fun k =>
              if k = r.address then some { u with vault := u.vault - r.amount } else s.stakes k },
            (r.address, r.amount))

/-- Inner week loop of update_id for one stakable unit: sum the frozen rate
times the staked amount over the periods current - 1 down to
current - claimed, skipping periods with no frozen rate. -/
def weekSum (u : StakableUnit) (current : Int) (claimed : Nat) (amt : Dec) : Dec :=
  ((List.range claimed).map (fun (w : Nat) =>
    match u.rewards (current - ((w : Int) + 1)) with
    | some rate => dMul rate amt
    | none => 0)).sum

/-- Outer loop of update_id: iterate over the stakables with their index,
unwrapping each unit. -/
def rewardTotal (stakes : Addr → Option StakableUnit) (current : Int) (claimed : Nat)
    (staked : List Dec) : List Addr → Nat → Option Dec
  | [], _ => some 0
  | a :: rest, i =>
    match stakes a with
    | none => none
    | some u =>
      match rewardTotal stakes current claimed staked rest (i + 1) with
      | none => none
      | some t => some (weekSum u current claimed (staked.getD i 0) + t)

/-- The update_id method (claim): with claimed capped at max_claim_delay and
required positive, pay the summed frozen rates over the claimable window and
advance the claim cursor of the position to current_period + 1. -/
def update_id (now : Instant) (id : Nat) (s : Staking) : Option (Staking × Dec) :=
  match check_indexes now id s with
  | none => none
  | some s1 =>
  match s1.ids id with
  | none => none
  | some d =>
    let claimed0 : Int := s1.current_period - d.next_period + 1
    let claimed : Int := if s1.max_claim_delay < claimed0 then s1.max_claim_delay else claimed0
    if ¬ (0 < claimed) then none
    else
      match rewardTotal s1.stakes s1.current_period claimed.toNat d.amounts_staked s1.stakables 0 with
      | none => none
      | some reward =>
        if s1.reward_vault < reward then none
        else
          some ({ s1 with
            ids := fun k =>
              if k = id then some { d with next_period := s1.current_period + 1 } else s1.ids k
            reward_vault := s1.reward_vault - reward }, reward)

/-- The lock_stake method: lock the position for the configured duration and
immediately pay the lock bonus from the reward vault. -/
def lock_stake (now : Instant) (address : Addr) (id : Nat) (s : Staking) :
    Option (Staking × Dec) :=
  match check_indexes now id s with
  | none => none
  | some s1 =>
  match position address s1.stakables with
  | none => none
  | some index =>
  match s1.stakes address with
  | none => none
  | some u =>
  match s1.ids id with
  | none => none
  | some d =>
    let staked_amount : Dec := d.amounts_staked.getD index 0
    let lock_ok : Bool :=
      match d.locked_until.getD index none with
      | some t => decide (t ≤ now)
      | none => true
    if ¬ (lock_ok = true) then none
    else
      let lock_until : Instant := now + u.lock.duration * 86400
      let locked1 := d.locked_until.set index (some lock_until)
      let payment : Dec := dMul u.lock.payment staked_amount
      if s1.reward_vault < payment then none
      else
        some ({ s1 with
          ids := fun k =>
            if k = id then some { d with locked_until := locked1 } else s1.ids k
          reward_vault := s1.reward_vault - payment }, payment)

/-- Admin: set the period interval (no validation in the source). -/
def set_period_interval (v : Int) (s : Staking) : Staking :=
  { s with period_interval := v }

/-- Admin: put a bucket into the reward vault. -/
def fill_rewards (amt : Dec) (s : Staking) : Staking :=
  { s with reward_vault := s.reward_vault + amt }

/-- Admin: take from the reward vault (panics when insufficient). -/
def remove_rewards (amt : Dec) (s : Staking) : Option (Staking × Dec) :=
  if s.reward_vault < amt then none
  else some ({ s with reward_vault := s.reward_vault - amt }, amt)

/-- Admin: set the maximum claim delay. -/
def set_max_claim_delay (v : Int) (s : Staking) : Staking :=
  { s with max_claim_delay := v }

/-- Admin: set the unstake delay, bounded by the configured maximum. -/
def set_unstake_delay (v : Int) (s : Staking) : Option Staking :=
  if ¬ (v ≤ s.max_unstaking_delay) then none
  else some { s with unstake_delay := v }

/-- Admin: set the per-period reward amount of a stakable (unwrap on the
key value store lookup). -/
def set_rewards (address : Addr) (v : Dec) (s : Staking) : Option Staking :=
  match s.stakes address with
  | none => none
  | some u =>
    some { s with stakes := fun k =>
      if k = address then some { u with reward_amount := v } else s.stakes k }

/-- The state stored by a successful add_stakable: a fresh zeroed unit under
the address and the address pushed onto the stakables list. For a fresh
address add_stakable returns exactly some of this state. -/
def add_stakable_fresh (address : Addr) (reward_amount : Dec) (lock : Lock)
    (s : Staking) : Staking :=
  { s with
    stakes := fun k =>
      if k = address then
        some { address := address, staked_amount := 0, vault := 0
               reward_amount := reward_amount, lock := lock, rewards := fun _ => none }
      else s.stakes k
    stakables := s.stakables ++ [address] }

/-- Admin: register a stakable asset. When the address is fresh the key
value store insert stores the new unit and the address is pushed onto the
stakables list. When a unit is already stored at the address, the insert
would implicitly drop the old unit — a StakableUnit owns a Vault and a
rewards KeyValueStore, neither of which the ledger allows to be dropped —
so a repeated registration aborts the transaction (none). -/
def add_stakable (address : Addr) (reward_amount : Dec) (lock : Lock) (s : Staking) :
    Option Staking :=
  match s.stakes address with
  | some _ => none
  | none => some (add_stakable_fresh address reward_amount lock s)

/-- Admin: edit the reward amount and lock terms of an existing stakable. -/
def edit_stakable (address : Addr) (reward_amount : Dec) (lock : Lock) (s : Staking) :
    Option Staking :=
  match s.stakes address with
  | none => none
  | some u =>
    some { s with stakes := fun k =>
      if k = address then some { u with reward_amount := reward_amount, lock := lock }
      else s.stakes k }

/-- Admin: force the next period boundary to the current time. -/
def set_next_period_to_now (now : Instant) (s : Staking) : Staking :=
  { s with next_period := now }

/-- Admin (DAO gated): directly set the lock of a position. The source
indexes the locked_until vector without reconciling the position first, so
the write panics when the vector is shorter than the index of the asset. -/
def set_lock (address : Addr) (lock_until : Instant) (id : Nat) (s : Staking) :
    Option Staking :=
  if ¬ (s.dao_controlled = true) then none
  else
    match s.ids id with
    | none => none
    | some d =>
      match position address s.stakables with
      | none => none
      | some index =>
        if d.locked_until.length ≤ index then none
        else
          some { s with ids := (fun k =>
            if k = id then some { d with locked_until := d.locked_until.set index (some lock_until) }
            else s.ids k) }

/-! Lemmas about freezeRates and update_period (claim C1). -/

/-- Relation between an optional unit before and after a freeze pass for
period p: presence, every scalar field and every reward entry other than p
are preserved. -/
def unitShape (p : Int) (o1 o2 : Option StakableUnit) : Prop :=
  match o1, o2 with
  | none, none => True
  | some u, some v =>
      v.address = u.address ∧ v.staked_amount = u.staked_amount ∧ v.vault = u.vault ∧
      v.reward_amount = u.reward_amount ∧ v.lock = u.lock ∧
      ∀ q, q ≠ p → v.rewards q = u.rewards q
  | _, _ => False

/-- The rate for period p is frozen in an optional unit, with the value
prescribed by the fields of that very unit. -/
def frozenAt (p : Int) (o : Option StakableUnit) : Prop :=
  match o with
  | none => False
  | some u =>
      u.rewards p = some (if 0 < u.staked_amount then dDiv u.reward_amount u.staked_amount else 0)

lemma unitShape_refl (p : Int) (o : Option StakableUnit) : unitShape p o o := by
  cases o with
  | none => trivial
  | some u => exact ⟨rfl, rfl, rfl, rfl, rfl, fun q _ => rfl⟩

lemma unitShape_trans (p : Int) (o1 o2 o3 : Option StakableUnit)
    (h1 : unitShape p o1 o2) (h2 : unitShape p o2 o3) : unitShape p o1 o3 := by
  cases o1 with
  | none =>
    cases o2 with
    | none => cases o3 with
      | none => trivial
      | some w => exact absurd h2 (by simp [unitShape])
    | some v => exact absurd h1 (by simp [unitShape])
  | some u =>
    cases o2 with
    | none => exact absurd h1 (by simp [unitShape])
    | some v =>
      cases o3 with
      | none => exact absurd h2 (by simp [unitShape])
      | some w =>
        obtain ⟨a1, b1, c1, d1, e1, f1⟩ := h1
        obtain ⟨a2, b2, c2, d2, e2, f2⟩ := h2
        exact ⟨a2.trans a1, b2.trans b1, c2.trans c1, d2.trans d1, e2.trans e1,
          fun q hq => (f2 q hq).trans (f1 q hq)⟩

lemma freezeRates_some (p : Int) (l : List Addr) :
    ∀ (m : Addr → Option StakableUnit), (∀ a ∈ l, (m a).isSome) →
      ∃ m2, freezeRates p l m = some m2 := by
  induction l with
  | nil => intro m _; exact ⟨m, rfl⟩
  | cons a rest ih =>
    intro m h
    obtain ⟨u, hu⟩ := Option.isSome_iff_exists.mp (h a (List.mem_cons_self a rest))
    have hrest : ∀ b ∈ rest,
        ((fun k => if k = a then
            some { u with rewards := fun q =>
              if q = p then some (if 0 < u.staked_amount then dDiv u.reward_amount u.staked_amount else 0)
              else u.rewards q }
          else m k) b).isSome := by
      intro b hb
      by_cases hba : b = a
      · simp [hba]
      · simpa [hba] using h b (List.mem_cons_of_mem a hb)
    obtain ⟨m2, hm2⟩ := ih _ hrest
    exact ⟨m2, by rw [freezeRates, hu]; exact hm2⟩

lemma freezeRates_shape (p : Int) (l : List Addr) :
    ∀ (m m2 : Addr → Option StakableUnit), freezeRates p l m = some m2 →
      ∀ a, unitShape p (m a) (m2 a) := by
  induction l with
  | nil =>
    intro m m2 h a
    rw [freezeRates] at h
    cases h
    exact unitShape_refl p (m a)
  | cons b rest ih =>
    intro m m2 h a
    rw [freezeRates] at h
    cases hb : m b with
    | none => rw [hb] at h; cases h
    | some u =>
      rw [hb] at h
      have step := ih _ _ h a
      refine unitShape_trans p _ _ _ ?_ step
      by_cases hab : a = b
      · subst hab
        rw [hb]
        simp only [if_pos rfl]
        exact ⟨rfl, rfl, rfl, rfl, rfl, fun q hq => by simp [if_neg hq]⟩
      · simp only [if_neg hab]
        exact unitShape_refl p (m a)

lemma freezeRates_frozen (p : Int) (l : List Addr) :
    ∀ (m m2 : Addr → Option StakableUnit), freezeRates p l m = some m2 →
      (∀ a, frozenAt p (m a) → frozenAt p (m2 a)) ∧ (∀ a ∈ l, frozenAt p (m2 a)) := by
  induction l with
  | nil =>
    intro m m2 h
    rw [freezeRates] at h
    cases h
    exact ⟨fun a ha => ha, fun a ha => absurd ha (List.not_mem_nil a)⟩
  | cons b rest ih =>
    intro m m2 h
    rw [freezeRates] at h
    cases hb : m b with
    | none => rw [hb] at h; cases h
    | some u =>
      rw [hb] at h
      obtain ⟨hpres, hmem⟩ := ih _ _ h
      have hb2 : frozenAt p
          ((fun k => if k = b then
              some { u with rewards := fun q =>
                if q = p then some (if 0 < u.staked_amount then dDiv u.reward_amount u.staked_amount else 0)
                else u.rewards q }
            else m k) b) := by
        simp [frozenAt]
      constructor
      · intro a ha
        refine hpres a ?_
        by_cases hab : a = b
        · subst hab; exact hb2
        · simpa [frozenAt, if_neg hab] using ha
      · intro a ha
        rcases List.mem_cons.mp ha with hab | har
        · subst hab; exact hpres a hb2
        · exact hmem a har

/-- The fixed-point computation of the extra-period count in update_period
equals the plain floor division of the overdue seconds by the interval in
seconds, whenever the component is overdue and the interval is positive. -/
lemma extra_periods_eq (del I : Int) (hdel : 0 ≤ del) (hI : 0 < I) :
    Int.fdiv (dDiv (decOf del) (dMul (decOf I) (decOf 86400))) decScale =
      Int.fdiv del (I * 86400) := by
  have hS : (0:Int) < decScale := by norm_num [decScale]
  have hdivisor : dMul (decOf I) (decOf 86400) = I * 86400 * decScale := by
    unfold dMul decOf
    rw [show I * decScale * (86400 * decScale) = I * 86400 * decScale * decScale by ring]
    exact Int.mul_tdiv_cancel _ (ne_of_gt hS)
  rw [hdivisor]
  unfold dDiv decOf
  have hD : (0:Int) < I * 86400 := by positivity
  have h1 : Int.tdiv (del * decScale * decScale) (I * 86400 * decScale)
      = del * decScale / (I * 86400) := by
    rw [Int.tdiv_eq_ediv (by positivity) (by positivity)]
    rw [show del * decScale * decScale = decScale * (del * decScale) by ring,
        show I * 86400 * decScale = decScale * (I * 86400) by ring]
    exact Int.mul_ediv_mul_of_pos _ _ hS
  rw [h1, Int.fdiv_eq_ediv _ (le_of_lt hS), Int.fdiv_eq_ediv _ (le_of_lt hD)]
  obtain ⟨a, rfl⟩ := Int.eq_ofNat_of_zero_le hdel
  obtain ⟨e, he⟩ := Int.eq_ofNat_of_zero_le (le_of_lt hD)
  obtain ⟨sn, hsn⟩ := Int.eq_ofNat_of_zero_le (le_of_lt hS)
  have hsn0 : 0 < sn := by
    rw [hsn] at hS
    exact_mod_cast hS
  rw [he, hsn]
  have hnat : a * sn / e / sn = a / e := by
    rw [Nat.div_div_eq_div_mul, Nat.mul_div_mul_right _ _ hsn0]
  exact_mod_cast hnat

lemma update_period_eq_of_due (now : Instant) (s : Staking)
    (hne : s.period_interval * 86400 ≠ 0) (hle : s.next_period ≤ now)
    (m2 : Addr → Option StakableUnit)
    (hm2 : freezeRates s.current_period s.stakables s.stakes = some m2) :
    update_period now s = some { s with
      stakes := m2
      current_period := s.current_period + 1
      next_period := s.next_period +
        (1 + Int.fdiv (dDiv (decOf (now - s.next_period))
            (dMul (decOf s.period_interval) (decOf 86400))) decScale) *
          (s.period_interval * 86400) } := by
  unfold update_period
  rw [if_neg hne, if_pos hle, hm2]

lemma update_period_eq_of_early (now : Instant) (s : Staking)
    (hne : s.period_interval * 86400 ≠ 0) (hlt : now < s.next_period) :
    update_period now s = some s := by
  unfold update_period
  rw [if_neg hne, if_neg (not_le.mpr hlt)]

/-- C1: when the current time is at or after the next period boundary,
update_period freezes, for every registered asset, the rate of period
current_period as reward_amount / staked_amount (0 when nothing is staked),
increments current_period by exactly 1 and advances the boundary by
(1 + extra) intervals with extra the floor of the overdue seconds divided by
the interval in seconds; rates of every other period (in particular the
period numbers skipped by the boundary jump) are untouched, and no asset
record appears or disappears. When the current time is before the boundary
the call returns the state unchanged. -/
theorem C1_update_period (now : Instant) (s : Staking)
    (hint : 0 < s.period_interval)
    (hdom : ∀ a ∈ s.stakables, (s.stakes a).isSome) :
    (s.next_period ≤ now →
      ∃ s2, update_period now s = some s2 ∧
        s2.current_period = s.current_period + 1 ∧
        s2.next_period = s.next_period +
          (1 + Int.fdiv (now - s.next_period) (s.period_interval * 86400)) *
            (s.period_interval * 86400) ∧
        (∀ a ∈ s.stakables, ∃ u v, s.stakes a = some u ∧ s2.stakes a = some v ∧
          v.rewards s.current_period =
            some (if 0 < u.staked_amount then dDiv u.reward_amount u.staked_amount else 0) ∧
          (∀ q, q ≠ s.current_period → v.rewards q = u.rewards q)) ∧
        (∀ a, unitShape s.current_period (s.stakes a) (s2.stakes a)) ∧
        s2.stakables = s.stakables ∧ s2.ids = s.ids) ∧
    (now < s.next_period → update_period now s = some s) := by
  have hne : s.period_interval * 86400 ≠ 0 :=
    ne_of_gt (by positivity)
  constructor
  · intro hle
    obtain ⟨m2, hm2⟩ := freezeRates_some s.current_period s.stakables s.stakes hdom
    refine ⟨_, update_period_eq_of_due now s hne hle m2 hm2, rfl, ?_, ?_, ?_, rfl, rfl⟩
    · show s.next_period + _ * (s.period_interval * 86400) = _
      rw [extra_periods_eq (now - s.next_period) s.period_interval
        (Int.sub_nonneg.mpr hle) hint]
    · intro a ha
      obtain ⟨u, hu⟩ := Option.isSome_iff_exists.mp (hdom a ha)
      have hshape := freezeRates_shape s.current_period s.stakables s.stakes m2 hm2 a
      have hfroz := (freezeRates_frozen s.current_period s.stakables s.stakes m2 hm2).2 a ha
      rw [hu] at hshape
      cases hv : m2 a with
      | none => rw [hv] at hfroz; exact absurd hfroz (by simp [frozenAt])
      | some v =>
        rw [hv] at hshape hfroz
        obtain ⟨_, hstk, _, hrew, _, hq⟩ := hshape
        refine ⟨u, v, hu, ?_, ?_, hq⟩
        · show m2 a = some v
          exact hv
        · simpa [frozenAt, hstk, hrew] using hfroz
    · intro a
      exact freezeRates_shape s.current_period s.stakables s.stakes m2 hm2 a
  · intro hlt
    exact update_period_eq_of_early now s hne hlt

/-- Concrete input for the C1 theorem. -/
def c1state : Staking := add_stakable_fresh 1 (decOf 700) ⟨0, 0⟩ (Staking.new 0 (decOf 1000) 7 false 100)

theorem C1_update_period_witness :
    0 < c1state.period_interval ∧ (∀ a ∈ c1state.stakables, (c1state.stakes a).isSome) ∧
    ((c1state.next_period ≤ 604800 →
      ∃ s2, update_period 604800 c1state = some s2 ∧
        s2.current_period = c1state.current_period + 1 ∧
        s2.next_period = c1state.next_period +
          (1 + Int.fdiv (604800 - c1state.next_period) (c1state.period_interval * 86400)) *
            (c1state.period_interval * 86400) ∧
        (∀ a ∈ c1state.stakables, ∃ u v, c1state.stakes a = some u ∧ s2.stakes a = some v ∧
          v.rewards c1state.current_period =
            some (if 0 < u.staked_amount then dDiv u.reward_amount u.staked_amount else 0) ∧
          (∀ q, q ≠ c1state.current_period → v.rewards q = u.rewards q)) ∧
        (∀ a, unitShape c1state.current_period (c1state.stakes a) (s2.stakes a)) ∧
        s2.stakables = c1state.stakables ∧ s2.ids = c1state.ids) ∧
    (604800 < c1state.next_period → update_period 604800 c1state = some c1state)) :=
  ⟨by decide, by decide, C1_update_period 604800 c1state (by decide) (by decide)⟩

/-! Claim C4: reconciliation (check_indexes). The source extends only the
amounts_staked and locked_until vectors; amounts_locked is left untouched. -/

/-- Concrete input for C4: a position minted while the registry was empty,
after which one asset is registered. -/
def c4state : Staking :=
  add_stakable_fresh 1 0 ⟨0, 0⟩ (create_id (Staking.new 0 (decOf 1000) 7 false 100)).1

/-- The position of c4state before reconciliation: all vectors empty. -/
def c4id : Id :=
  { amounts_staked := [], amounts_locked := [], next_period := 1, locked_until := [] }

/-- C4 counterexample: after reconciliation against a registry of one asset,
the position's amounts_staked and locked_until vectors have length 1 but
amounts_locked still has length 0 — the claim that all three vectors are
extended to the registry size is false on this input. -/
theorem C4_counterexample :
    c4state.stakables.length = 1 ∧
    (check_indexes 0 1 c4state).map (fun s2 => (s2.ids 1).map (fun d =>
      (d.amounts_staked.length, d.amounts_locked.length, d.locked_until.length))) =
      some (some (1, 0, 1)) := by
  constructor
  · rfl
  · rfl

/-- C4 amended: check_indexes extends the amounts_staked and locked_until
vectors of the position with default entries (0 and absent) up to the
registry size, preserving existing entries and their index alignment, and
leaves amounts_locked (and the claim cursor) unchanged; so after
reconciliation the amounts_staked and locked_until lengths equal the number
of registered assets, but the amounts_locked length keeps its old value. -/
theorem C4_check_indexes (now : Instant) (id : Nat) (s : Staking) (d : Id)
    (hnow : now < s.next_period)
    (hd : s.ids id = some d)
    (hlen : d.amounts_staked.length ≤ s.stakables.length)
    (hlock : d.locked_until.length = d.amounts_staked.length) :
    ∃ d2, (check_indexes now id s).map (fun s2 => s2.ids id) = some (some d2) ∧
      d2.amounts_staked = d.amounts_staked ++
        List.replicate (s.stakables.length - d.amounts_staked.length) 0 ∧
      d2.locked_until = d.locked_until ++
        List.replicate (s.stakables.length - d.amounts_staked.length) none ∧
      d2.amounts_locked = d.amounts_locked ∧
      d2.next_period = d.next_period ∧
      d2.amounts_staked.length = s.stakables.length ∧
      d2.locked_until.length = s.stakables.length ∧
      d2.amounts_locked.length = d.amounts_locked.length := by
  have hstep : (if s.next_period ≤ now then update_period now s else some s) = some s :=
    if_neg (not_le.mpr hnow)
  unfold check_indexes
  rw [hstep]
  by_cases heq : d.amounts_staked.length = s.stakables.length
  · refine ⟨d, ?_, by simp [heq], by simp [heq], rfl, rfl, heq, hlock.trans heq, rfl⟩
    simp [hd, heq]
  · have hlt : ¬ s.stakables.length < d.amounts_staked.length := not_lt.mpr hlen
    refine ⟨{ d with
        amounts_staked := d.amounts_staked ++
          List.replicate (s.stakables.length - d.amounts_staked.length) 0
        locked_until := d.locked_until ++
          List.replicate (s.stakables.length - d.amounts_staked.length) none },
      ?_, rfl, rfl, rfl, rfl, ?_, ?_, rfl⟩
    · simp [hd, heq, hlt]
    · simp [Nat.add_sub_cancel' hlen]
    · simp [hlock, Nat.add_sub_cancel' hlen]

theorem C4_check_indexes_witness :
    ((0 : Instant) < c4state.next_period ∧ c4state.ids 1 = some c4id ∧
      c4id.amounts_staked.length ≤ c4state.stakables.length ∧
      c4id.locked_until.length = c4id.amounts_staked.length) ∧
    (∃ d2, (check_indexes 0 1 c4state).map (fun s2 => s2.ids 1) = some (some d2) ∧
      d2.amounts_staked = c4id.amounts_staked ++
        List.replicate (c4state.stakables.length - c4id.amounts_staked.length) 0 ∧
      d2.locked_until = c4id.locked_until ++
        List.replicate (c4state.stakables.length - c4id.amounts_staked.length) none ∧
      d2.amounts_locked = c4id.amounts_locked ∧
      d2.next_period = c4id.next_period ∧
      d2.amounts_staked.length = c4state.stakables.length ∧
      d2.locked_until.length = c4state.stakables.length ∧
      d2.amounts_locked.length = c4id.amounts_locked.length) :=
  ⟨⟨by decide, by decide, by decide, by decide⟩,
    C4_check_indexes 0 1 c4state c4id (by decide) (by decide) (by decide) (by decide)⟩

/-! Claims C3 and C7: start_unstake. -/

lemma check_indexes_id_eq (now : Instant) (id : Nat) (s : Staking) (d : Id)
    (hnow : now < s.next_period) (hd : s.ids id = some d)
    (hlen : d.amounts_staked.length = s.stakables.length) :
    check_indexes now id s = some s := by
  unfold check_indexes
  rw [if_neg (not_le.mpr hnow)]
  simp [hd, hlen]

/-- The amount actually unstaked by start_unstake: the requested amount, or
the full staked amount when unstake_all is set, clamped above by the staked
amount. -/
def resolvedUnstake (staked_i request : Dec) (unstake_all : Bool) : Dec :=
  if staked_i ≤ (if unstake_all then staked_i else request) then staked_i
  else (if unstake_all then staked_i else request)

/-- The state after registering one asset, minting a position and staking
350 units to it at time 100 (all during period 0). -/
def c3base : Staking :=
  (stake 100 1 (some (decOf 350)) 1 none
    (create_id (add_stakable_fresh 1 (decOf 700) ⟨0, 0⟩ (Staking.new 0 (decOf 1000) 7 false 100))).1).getD
    (Staking.new 0 0 1 false 0)

/-- The position record held by c3base under local id 1. -/
def c3id : Id :=
  { amounts_staked := [decOf 350], amounts_locked := [0], next_period := 1,
    locked_until := [none] }

/-- C3 counterexample: a position stakes 350 units of asset 1, then requests
an unstake of 999 units (more than is staked). The claim says the operation
fails; in the code the request is clamped and succeeds, debiting the full
350 and minting a receipt over 350. -/
theorem C3_counterexample :
    (c3base.ids 1).map Id.amounts_staked = some [decOf 350] ∧
    (start_unstake 200 1 1 (decOf 999) false false c3base).map
      (fun p => p.2.amount) = some (decOf 350) ∧
    (start_unstake 200 1 1 (decOf 999) false false c3base).map
      (fun p => (p.1.ids 1).map Id.amounts_staked) = some (some [0]) := by
  refine ⟨by decide, by decide, by decide⟩

/-- C3 amended: when the requested amount is at least the staked amount at
the asset's index (and the stake is positive and unlocked), start_unstake
on the unstake-receipt path does not fail: the request is clamped to the
staked amount, the position's entry becomes 0, the asset aggregate drops by
the staked amount, and the minted unstake receipt records exactly the
staked amount. (The transfer-mode path is settled separately under C7: its
mint always fails schema validation.) -/
theorem C3_start_unstake_clamps (now : Instant) (id : Nat) (address : Addr)
    (unstake_amount : Dec) (s : Staking) (d : Id) (index : Nat)
    (hnow : now < s.next_period)
    (hd : s.ids id = some d)
    (hlen : d.amounts_staked.length = s.stakables.length)
    (hidx : position address s.stakables = some index)
    (hpos : 0 < d.amounts_staked.getD index 0)
    (hlk : (match d.locked_until.getD index none with
            | some t => decide (t ≤ now)
            | none => true) = true)
    (hu : (s.stakes address).isSome)
    (hbig : d.amounts_staked.getD index 0 ≤ unstake_amount) :
    (start_unstake now id address unstake_amount false false s).map
        (fun p => p.2.amount) = some (d.amounts_staked.getD index 0) ∧
    (start_unstake now id address unstake_amount false false s).map
        (fun p => p.2.address) = some address ∧
    (start_unstake now id address unstake_amount false false s).map
        (fun p => p.1.ids id) =
      some (some { d with amounts_staked := d.amounts_staked.set index 0 }) ∧
    (start_unstake now id address unstake_amount false false s).map
        (fun p => (p.1.stakes address).map StakableUnit.staked_amount) =
      some ((s.stakes address).map
        (fun u => u.staked_amount - d.amounts_staked.getD index 0)) := by
  obtain ⟨u, hu2⟩ := Option.isSome_iff_exists.mp hu
  have hci := check_indexes_id_eq now id s d hnow hd hlen
  unfold start_unstake
  rw [hci]
  simp only [hd, hidx, hu2]
  rw [if_neg (by simpa using hpos), if_neg (by simpa using hlk)]
  simp only [Bool.false_eq_true, if_false, if_pos hbig]
  exact ⟨by simp [ReceiptOut.amount], by simp [ReceiptOut.address], by simp, by simp [hu2]⟩

theorem C3_start_unstake_clamps_witness :
    ((200 : Instant) < c3base.next_period ∧ c3base.ids 1 = some c3id ∧
      c3id.amounts_staked.length = c3base.stakables.length ∧
      (c3base.stakes 1).isSome ∧
      c3id.amounts_staked.getD 0 0 ≤ decOf 999) ∧
    ((start_unstake 200 1 1 (decOf 999) false false c3base).map
        (fun p => p.2.amount) = some (decOf 350) ∧
      (start_unstake 200 1 1 (decOf 999) false false c3base).map
        (fun p => p.1.ids 1) = some (some
          { amounts_staked := [0]
            amounts_locked := [0]
            next_period := 1
            locked_until := [none] }) ∧
      (start_unstake 200 1 1 (decOf 999) false false c3base).map
        (fun p => (p.1.stakes 1).map StakableUnit.staked_amount) = some (some 0)) := by
  have h := C3_start_unstake_clamps 200 1 1 (decOf 999) c3base c3id 0
    (by decide) (by decide) (by decide) (by decide) (by decide) (by decide) (by decide)
    (by decide)
  exact ⟨⟨by decide, by decide, by decide, by decide, by decide⟩,
    h.1.trans (by decide), h.2.2.1.trans (by decide), h.2.2.2.trans (by decide)⟩

lemma update_period_schema (now : Instant) (s s1 : Staking)
    (h : update_period now s = some s1) :
    s1.stake_transfer_receipt_schema = s.stake_transfer_receipt_schema := by
  by_cases h0 : s.period_interval * 86400 = 0
  · unfold update_period at h
    rw [if_pos h0] at h
    cases h
  · by_cases hle : s.next_period ≤ now
    · cases hf : freezeRates s.current_period s.stakables s.stakes with
      | none =>
        unfold update_period at h
        rw [if_neg h0, if_pos hle, hf] at h
        cases h
      | some m2 =>
        rw [update_period_eq_of_due now s h0 hle m2 hf] at h
        cases h
        rfl
    · rw [update_period_eq_of_early now s h0 (not_le.mp hle)] at h
      cases h
      rfl

lemma check_indexes_schema (now : Instant) (id : Nat) (s s1 : Staking)
    (h : check_indexes now id s = some s1) :
    s1.stake_transfer_receipt_schema = s.stake_transfer_receipt_schema := by
  unfold check_indexes at h
  cases hstep : (if s.next_period ≤ now then update_period now s else some s) with
  | none =>
    rw [hstep] at h
    cases h
  | some sm =>
    rw [hstep] at h
    have hm : sm.stake_transfer_receipt_schema = s.stake_transfer_receipt_schema := by
      by_cases hle : s.next_period ≤ now
      · rw [if_pos hle] at hstep
        exact update_period_schema now s sm hstep
      · rw [if_neg hle] at hstep
        cases hstep
        rfl
    cases hi : sm.ids id with
    | none =>
      simp only [hi] at h
      cases h
    | some d =>
      simp only [hi] at h
      repeat' split at h
      all_goals try cases h
      all_goals exact hm

/-- C7 (code bug): the constructor registers the stake transfer receipt
resource manager with the UnstakeReceipt data schema, but start_unstake in
transfer mode mints a two-field StakeTransferReceipt through that manager;
the mint fails ledger schema validation and aborts the call. So on every
state whose manager carries the schema the constructor registered — which
no method ever changes — start_unstake with stake_transfer = true returns
none, whatever the position looks like: the claimed
success-with-transfer-receipt behaviour is unreachable in the program. -/
theorem C7_start_unstake_transfer (now : Instant) (id : Nat) (address : Addr)
    (unstake_amount : Dec) (unstake_all : Bool) (s : Staking)
    (hs : s.stake_transfer_receipt_schema = NFSchema.unstakeReceipt) :
    start_unstake now id address unstake_amount unstake_all true s = none := by
  unfold start_unstake
  cases hc : check_indexes now id s with
  | none => simp only [hc]
  | some sc =>
    have hsc : sc.stake_transfer_receipt_schema = NFSchema.unstakeReceipt :=
      (check_indexes_schema now id s sc hc).trans hs
    simp only [hc]
    cases hd : sc.ids id with
    | none => simp only [hd]
    | some d =>
      simp only [hd]
      cases hidx : position address sc.stakables with
      | none => simp only [hidx]
      | some index =>
        simp only [hidx]
        split
        · rfl
        · split
          · rfl
          · cases hu : sc.stakes address with
            | none => simp only [hu]
            | some u =>
              simp only [hu]
              have hne : ¬ sc.stake_transfer_receipt_schema = NFSchema.stakeTransferReceipt := by
                rw [hsc]
                intro hcontra
                cases hcontra
              rw [if_pos trivial, if_neg hne]

theorem C7_start_unstake_transfer_witness :
    (c3base.stake_transfer_receipt_schema = NFSchema.unstakeReceipt ∧
      (c3base.ids 1).map Id.amounts_staked = some [decOf 350]) ∧
    (start_unstake 200 1 1 (decOf 50) false true c3base = none ∧
      (start_unstake 200 1 1 (decOf 50) false false c3base).isSome = true) :=
  ⟨⟨by decide, by decide⟩,
    C7_start_unstake_transfer 200 1 1 (decOf 50) false c3base (by decide), by decide⟩

/-! Claim C9: finish_unstake. -/

/-- C9: before the redemption time a live unstake receipt cannot be
redeemed; at or after it, finish_unstake burns the receipt and returns
exactly the recorded amount of the recorded asset out of its vault, and the
burned receipt can never be redeemed a second time. -/
theorem C9_finish_unstake (rid : Nat) (s : Staking) (r : UnstakeReceipt) (v : Dec)
    (now1 now2 : Instant)
    (hr : s.unstake_receipts rid = some r)
    (hu : (s.stakes r.address).map StakableUnit.vault = some v)
    (hv : ¬ v < r.amount)
    (h1 : now1 < r.redemption_time)
    (h2 : r.redemption_time ≤ now2) :
    finish_unstake now1 rid s = none ∧
    ∃ s2, finish_unstake now2 rid s = some (s2, (r.address, r.amount)) ∧
      s2.unstake_receipts rid = none ∧
      (∀ t, finish_unstake t rid s2 = none) ∧
      (s2.stakes r.address).map StakableUnit.vault = some (v - r.amount) := by
  cases hu2 : s.stakes r.address with
  | none => rw [hu2] at hu; cases hu
  | some u =>
    rw [hu2] at hu
    have huv : u.vault = v := by simpa using hu
    have hv2 : ¬ u.vault < r.amount := by rw [huv]; exact hv
    constructor
    · unfold finish_unstake
      simp only [hr]
      rw [if_pos (not_le.mpr h1)]
    · unfold finish_unstake
      simp only [hr]
      rw [if_neg (not_not_intro h2)]
      simp only [hu2]
      rw [if_neg hv2]
      refine ⟨_, rfl, by simp, ?_, by simp [huv]⟩
      intro t
      simp

/-- The state after c3base additionally requests a plain unstake of 50
units at time 200, minting unstake receipt 1 redeemable at time 605000. -/
def c9base : Staking :=
  ((start_unstake 200 1 1 (decOf 50) false false c3base).map Prod.fst).getD
    (Staking.new 0 0 1 false 0)

/-- The unstake receipt held after c9base. -/
def c9r : UnstakeReceipt :=
  { address := 1, amount := decOf 50, redemption_time := 605000 }

theorem C9_finish_unstake_witness :
    (c9base.unstake_receipts 1 = some c9r ∧
      (c9base.stakes c9r.address).map StakableUnit.vault = some (decOf 350) ∧
      ¬ (decOf 350) < c9r.amount ∧
      (604999 : Instant) < c9r.redemption_time ∧
      c9r.redemption_time ≤ (605000 : Instant)) ∧
    (finish_unstake 604999 1 c9base = none ∧
      ∃ s2, finish_unstake 605000 1 c9base = some (s2, (c9r.address, c9r.amount)) ∧
        s2.unstake_receipts 1 = none ∧
        (∀ t, finish_unstake t 1 s2 = none) ∧
        (s2.stakes c9r.address).map StakableUnit.vault = some (decOf 350 - c9r.amount)) :=
  ⟨⟨by decide, by decide, by decide, by decide, by decide⟩,
    C9_finish_unstake 1 c9base c9r (decOf 350) 604999 605000
      (by decide) (by decide) (by decide) (by decide) (by decide)⟩

/-! Claim C10: set_lock and the missing reconciliation step. -/

lemma position_lt_length {a : Addr} :
    ∀ {l : List Addr} {i : Nat}, position a l = some i → i < l.length := by
  intro l
  induction l with
  | nil => intro i h; cases h
  | cons b rest ih =>
    intro i h
    rw [position] at h
    by_cases hb : b = a
    · rw [if_pos hb] at h
      cases h
      simp
    · rw [if_neg hb] at h
      cases hp : position a rest with
      | none => rw [hp] at h; cases h
      | some j =>
        rw [hp] at h
        cases h
        simpa using Nat.succ_lt_succ (ih hp)

lemma check_indexes_eq_extend (now : Instant) (id : Nat) (s : Staking) (d : Id)
    (hnow : now < s.next_period) (hd : s.ids id = some d)
    (hne : d.amounts_staked.length ≠ s.stakables.length)
    (hlen : d.amounts_staked.length ≤ s.stakables.length) :
    check_indexes now id s = some { s with ids := (fun k => if k = id then some { d with
      amounts_staked := d.amounts_staked ++
        List.replicate (s.stakables.length - d.amounts_staked.length) 0
      locked_until := d.locked_until ++
        List.replicate (s.stakables.length - d.amounts_staked.length) none } else s.ids k) } := by
  unfold check_indexes
  rw [if_neg (not_le.mpr hnow)]
  simp [hd, hne, not_lt.mpr hlen]

/-- C10: set_lock is the one position-mutating entry point that skips the
reconciliation step. On a position whose locked_until vector is shorter than
the registry index of the target asset, set_lock aborts with the
out-of-bounds vector write (modelled as none); by contrast, running the
reconciliation step check_indexes first (as every other position-mutating
entry point does) extends the vectors, after which the very same set_lock
call succeeds. -/
theorem C10_set_lock_out_of_bounds (address : Addr) (lock_until : Instant) (id : Nat)
    (s : Staking) (d : Id) (index : Nat) (now : Instant)
    (hdao : s.dao_controlled = true)
    (hd : s.ids id = some d)
    (hidx : position address s.stakables = some index)
    (hshort : d.locked_until.length ≤ index)
    (hnow : now < s.next_period)
    (hlock : d.locked_until.length = d.amounts_staked.length)
    (hlen : d.amounts_staked.length ≤ s.stakables.length) :
    set_lock address lock_until id s = none ∧
    ∃ s2, check_indexes now id s = some s2 ∧ (set_lock address lock_until id s2).isSome := by
  have hil : index < s.stakables.length := position_lt_length hidx
  constructor
  · simp [set_lock, hdao, hd, hidx, hshort]
  · have hne : d.amounts_staked.length ≠ s.stakables.length := by omega
    refine ⟨_, check_indexes_eq_extend now id s d hnow hd hne hlen, ?_⟩
    simp [set_lock, hdao, hidx]
    omega

/-- Concrete input for C10: DAO-controlled component, position created with
an empty registry, one asset registered afterwards, no reconciliation. -/
def c10state : Staking :=
  add_stakable_fresh 1 0 ⟨0, 0⟩ (create_id (Staking.new 0 (decOf 1000) 7 true 100)).1

theorem C10_set_lock_out_of_bounds_witness :
    (c10state.dao_controlled = true ∧ c10state.ids 1 = some c4id ∧
      position 1 c10state.stakables = some 0 ∧
      c4id.locked_until.length ≤ 0 ∧
      (0 : Instant) < c10state.next_period ∧
      c4id.locked_until.length = c4id.amounts_staked.length ∧
      c4id.amounts_staked.length ≤ c10state.stakables.length) ∧
    (set_lock 1 999 1 c10state = none ∧
      ∃ s2, check_indexes 0 1 c10state = some s2 ∧ (set_lock 1 999 1 s2).isSome) :=
  ⟨⟨by decide, by decide, by decide, by decide, by decide, by decide, by decide⟩,
    C10_set_lock_out_of_bounds 1 999 1 c10state c4id 0 0
      (by decide) (by decide) (by decide) (by decide) (by decide) (by decide) (by decide)⟩

/-! Claim C2: update_id (claiming rewards). -/

/-- The frozen rate stored for asset a and period p (0 when absent). -/
def frozenRate (s : Staking) (a : Addr) (p : Int) : Dec :=
  match s.stakes a with
  | some u =>
    match u.rewards p with
    | some rate => rate
    | none => 0
  | none => 0

/-- Specification of the amount paid by a claim: for every registered asset
index and every period in the claimable window, counting backward from
current_period - 1 over claimed periods, the frozen rate (0 when absent)
times the position's staked amount at that index. -/
def claimSpec (s : Staking) (d : Id) (claimed : Int) : Dec :=
  ∑ i in Finset.range s.stakables.length,
    ∑ p in Finset.Icc (s.current_period - claimed) (s.current_period - 1),
      dMul (frozenRate s (s.stakables.getD i 0) p) (d.amounts_staked.getD i 0)

/-- Total unit used to read a stakable that is known to be present. -/
def unitAt (stakes : Addr → Option StakableUnit) (a : Addr) : StakableUnit :=
  match stakes a with
  | some u => u
  | none =>
    { address := 0, staked_amount := 0, vault := 0, reward_amount := 0,
      lock := ⟨0, 0⟩, rewards := fun _ => none }

lemma list_range_map_sum (g : Nat → Dec) :
    ∀ k, ((List.range k).map g).sum = ∑ w in Finset.range k, g w := by
  intro k
  induction k with
  | zero => simp
  | succ n ih =>
    rw [List.range_succ, List.map_append, List.sum_append, Finset.sum_range_succ, ih]
    simp

lemma sum_Icc_reindex (g : Int → Dec) (c : Int) :
    ∀ (k : Nat), ∑ p in Finset.Icc (c - k) (c - 1), g p =
      ∑ w in Finset.range k, g (c - ((w : Int) + 1)) := by
  intro k
  induction k with
  | zero =>
    have hem : Finset.Icc (c - ((0 : Nat) : Int)) (c - 1) = ∅ :=
      Finset.Icc_eq_empty (by push_cast; omega)
    rw [Finset.sum_range_zero, hem]
    rfl
  | succ n ih =>
    have hmem : (c - (n + 1 : Nat) : Int) ∉ Finset.Icc (c - (n : Nat)) (c - 1) := by
      simp only [Finset.mem_Icc]
      push_cast
      omega
    have hins : Finset.Icc (c - (n + 1 : Nat) : Int) (c - 1) =
        insert (c - (n + 1 : Nat) : Int) (Finset.Icc (c - (n : Nat)) (c - 1)) := by
      ext x
      simp only [Finset.mem_Icc, Finset.mem_insert]
      push_cast
      omega
    rw [hins, Finset.sum_insert hmem, Finset.sum_range_succ, ih]
    have harg : (c - (((n : Nat) : Int) + 1)) = (c - (n + 1 : Nat) : Int) := by
      push_cast
      omega
    rw [harg]
    exact add_comm _ _

lemma weekSum_eq_Icc (u : StakableUnit) (current : Int) (k : Nat) (amt : Dec) :
    weekSum u current k amt =
      ∑ p in Finset.Icc (current - k) (current - 1),
        dMul (match u.rewards p with | some rate => rate | none => 0) amt := by
  unfold weekSum
  rw [list_range_map_sum, sum_Icc_reindex]
  refine Finset.sum_congr rfl ?_
  intro w _
  cases u.rewards (current - (Int.ofNat w + 1)) with
  | none => simp [dMul]
  | some rate => rfl

lemma rewardTotal_eq_sum (stakes : Addr → Option StakableUnit) (current : Int) (claimed : Nat)
    (staked : List Dec) :
    ∀ (l : List Addr) (i0 : Nat), (∀ a ∈ l, (stakes a).isSome) →
      rewardTotal stakes current claimed staked l i0 =
        some (∑ j in Finset.range l.length,
          weekSum (unitAt stakes (l.getD j 0)) current claimed (staked.getD (i0 + j) 0)) := by
  intro l
  induction l with
  | nil =>
    intro i0 _
    simp [rewardTotal]
  | cons a rest ih =>
    intro i0 h
    obtain ⟨u, hu⟩ := Option.isSome_iff_exists.mp (h a (List.mem_cons_self a rest))
    have hrest : ∀ b ∈ rest, (stakes b).isSome :=
      fun b hb => h b (List.mem_cons_of_mem a hb)
    have hsum : ∑ j in Finset.range (a :: rest).length,
        weekSum (unitAt stakes ((a :: rest).getD j 0)) current claimed (staked.getD (i0 + j) 0) =
        (∑ j in Finset.range rest.length,
          weekSum (unitAt stakes (rest.getD j 0)) current claimed (staked.getD (i0 + 1 + j) 0)) +
        weekSum u current claimed (staked.getD i0 0) := by
      rw [List.length_cons, Finset.sum_range_succ']
      congr 1
      · refine Finset.sum_congr rfl ?_
        intro j _
        have harg : i0 + (j + 1) = i0 + 1 + j := by omega
        rw [harg]
        rfl
      · simp only [List.getD_cons_zero, Nat.add_zero]
        unfold unitAt
        rw [hu]
    rw [hsum, rewardTotal, hu, ih (i0 + 1) hrest]
    exact congrArg some (add_comm _ _)

/-- For a nonnegative claimable count, the reward loop of update_id computes
exactly the claimSpec sum, provided every listed stakable has a unit. -/
lemma rewardTotal_eq_claimSpec (s : Staking) (d : Id) (claimed : Int)
    (hpos : 0 ≤ claimed)
    (hdom : ∀ a ∈ s.stakables, (s.stakes a).isSome) :
    rewardTotal s.stakes s.current_period claimed.toNat d.amounts_staked s.stakables 0 =
      some (claimSpec s d claimed) := by
  rw [rewardTotal_eq_sum s.stakes s.current_period _ d.amounts_staked s.stakables 0 hdom]
  unfold claimSpec
  congr 1
  refine Finset.sum_congr rfl ?_
  intro j hj
  rw [weekSum_eq_Icc]
  have hcast : ((claimed.toNat : Int)) = claimed := by omega
  rw [hcast]
  refine Finset.sum_congr rfl ?_
  intro p _
  have hj2 : j < s.stakables.length := Finset.mem_range.mp hj
  have hmem : s.stakables.getD j 0 ∈ s.stakables := by
    rw [List.getD_eq_getElem _ _ hj2]
    exact List.getElem_mem hj2
  obtain ⟨u, hu⟩ := Option.isSome_iff_exists.mp (hdom _ hmem)
  unfold unitAt frozenRate
  rw [hu]
  simp

/-- C2: a claim through update_id, with claimable defined as the minimum of
current_period - next_period + 1 and max_claim_delay. The call fails when
claimable is not positive; otherwise it pays, for every registered asset and
for the claimable periods counting backward from current_period - 1, the
frozen rate (skipping periods with none) times the position's staked amount
at that index, and it sets the position's next_period to current_period + 1.
In particular no more than max_claim_delay periods are ever paid. -/
theorem C2_update_id (now : Instant) (id : Nat) (s : Staking) (d : Id)
    (hnow : now < s.next_period)
    (hd : s.ids id = some d)
    (hlen : d.amounts_staked.length = s.stakables.length)
    (hdom : ∀ a ∈ s.stakables, (s.stakes a).isSome) :
    (min (s.current_period - d.next_period + 1) s.max_claim_delay ≤ 0 →
      update_id now id s = none) ∧
    (0 < min (s.current_period - d.next_period + 1) s.max_claim_delay →
      ¬ s.reward_vault <
          claimSpec s d (min (s.current_period - d.next_period + 1) s.max_claim_delay) →
      ∃ s2, update_id now id s =
          some (s2, claimSpec s d (min (s.current_period - d.next_period + 1) s.max_claim_delay)) ∧
        s2.ids id = some { d with next_period := s.current_period + 1 } ∧
        s2.reward_vault = s.reward_vault -
          claimSpec s d (min (s.current_period - d.next_period + 1) s.max_claim_delay)) := by
  have hci := check_indexes_id_eq now id s d hnow hd hlen
  have hcl : (if s.max_claim_delay < s.current_period - d.next_period + 1
      then s.max_claim_delay else s.current_period - d.next_period + 1) =
      min (s.current_period - d.next_period + 1) s.max_claim_delay := by
    split <;> omega
  constructor
  · intro hle
    unfold update_id
    rw [hci]
    simp only [hd]
    rw [hcl, if_pos (not_lt.mpr hle)]
  · intro hpos hvault
    unfold update_id
    rw [hci]
    simp only [hd]
    rw [hcl, if_neg (not_not_intro hpos)]
    simp only [rewardTotal_eq_claimSpec s d _ (le_of_lt hpos) hdom]
    rw [if_neg hvault]
    refine ⟨_, rfl, by simp, by simp⟩

/-- Concrete input for the C2 theorem: c3base rolled past the first period
boundary, so that period 0 carries the frozen rate 2 and the position has
exactly one claimable period. -/
def c2base : Staking := (update_period 604800 c3base).getD (Staking.new 0 0 1 false 0)

theorem C2_update_id_witness :
    ((604801 : Instant) < c2base.next_period ∧ c2base.ids 1 = some c3id ∧
      c3id.amounts_staked.length = c2base.stakables.length ∧
      (∀ a ∈ c2base.stakables, (c2base.stakes a).isSome) ∧
      0 < min (c2base.current_period - c3id.next_period + 1) c2base.max_claim_delay ∧
      ¬ c2base.reward_vault <
        claimSpec c2base c3id (min (c2base.current_period - c3id.next_period + 1) c2base.max_claim_delay) ∧
      claimSpec c2base c3id (min (c2base.current_period - c3id.next_period + 1) c2base.max_claim_delay) =
        decOf 700) ∧
    (∃ s2, update_id 604801 1 c2base =
        some (s2, claimSpec c2base c3id
          (min (c2base.current_period - c3id.next_period + 1) c2base.max_claim_delay)) ∧
      s2.ids 1 = some { c3id with next_period := c2base.current_period + 1 } ∧
      s2.reward_vault = c2base.reward_vault -
        claimSpec c2base c3id
          (min (c2base.current_period - c3id.next_period + 1) c2base.max_claim_delay)) :=
  ⟨⟨by decide, by decide, by decide, by decide, by decide, by decide, by decide⟩,
    (C2_update_id 604801 1 c2base c3id (by decide) (by decide) (by decide) (by decide)).2
      (by decide) (by decide)⟩

/-! Claim C6: eligibility of tokens staked during a period. -/

/-- The registry and position state just before the c3base stake: one asset
registered, position 1 freshly minted, current period 0. -/
def c6pre : Staking :=
  (create_id (add_stakable_fresh 1 (decOf 700) ⟨0, 0⟩ (Staking.new 0 (decOf 1000) 7 false 100))).1

/-- C6 counterexample: 350 units are staked during period 0 (setting the
position cursor to 1). At the first boundary the period-0 rate 2 is frozen
over a staked total that includes those tokens, and the very first claim
pays 700 = 2 * 350: period 0's frozen rate IS paid on the amount added
during period 0, where the claim predicts such a payment can never happen. -/
theorem C6_counterexample :
    c6pre.current_period = 0 ∧
    (c3base.ids 1).map Id.next_period = some 1 ∧
    (c3base.ids 1).map Id.amounts_staked = some [decOf 350] ∧
    c2base.current_period = 1 ∧
    (c2base.stakes 1).map (fun u => u.rewards 0) = some (some (decOf 2)) ∧
    (update_id 604801 1 c2base).map Prod.snd = some (decOf 700) := by
  refine ⟨by decide, by decide, by decide, by decide, by decide, by decide⟩

/-- C6 amended: a stake performed during period P (time before the boundary,
so P is the current period) sets the position cursor next_period to P + 1.
A later successful claim with that cursor pays exactly the claimSpec sum
over the period window from current - claimable to current - 1, and the
bottom of that window is at least P: so period P itself is eligible and is
paid (when frozen and within max_claim_delay), while periods before P are
never paid on the position. -/
theorem C6_stake_period_eligibility
    (t : Instant) (address : Addr) (b : Option Dec) (id : Nat) (rcpt : Option Nat)
    (s : Staking) (d : Id) (s2 : Staking)
    (ht : t < s.next_period) (hd : s.ids id = some d)
    (hlen : d.amounts_staked.length = s.stakables.length)
    (hstake : stake t address b id rcpt s = some s2)
    (now3 : Instant) (s3 : Staking) (d3 : Id) (s4 : Staking) (r : Dec)
    (hnow3 : now3 < s3.next_period) (hd3 : s3.ids id = some d3)
    (hlen3 : d3.amounts_staked.length = s3.stakables.length)
    (hdom3 : ∀ a ∈ s3.stakables, (s3.stakes a).isSome)
    (hcursor : d3.next_period = s.current_period + 1)
    (hclaim : update_id now3 id s3 = some (s4, r)) :
    (s2.ids id).map Id.next_period = some (s.current_period + 1) ∧
    r = claimSpec s3 d3 (min (s3.current_period - d3.next_period + 1) s3.max_claim_delay) ∧
    s.current_period ≤ s3.current_period -
      min (s3.current_period - d3.next_period + 1) s3.max_claim_delay := by
  refine ⟨?_, ?_, ?_⟩
  · have hci := check_indexes_id_eq t id s d ht hd hlen
    unfold stake at hstake
    rw [hci] at hstake
    simp only [hd] at hstake
    repeat' split at hstake
    all_goals try cases hstake
    all_goals simp
  · have hci3 := check_indexes_id_eq now3 id s3 d3 hnow3 hd3 hlen3
    have hcl3 : (if s3.max_claim_delay < s3.current_period - d3.next_period + 1
        then s3.max_claim_delay else s3.current_period - d3.next_period + 1) =
        min (s3.current_period - d3.next_period + 1) s3.max_claim_delay := by
      split <;> omega
    unfold update_id at hclaim
    rw [hci3] at hclaim
    simp only [hd3] at hclaim
    rw [hcl3] at hclaim
    by_cases hp : 0 < min (s3.current_period - d3.next_period + 1) s3.max_claim_delay
    · rw [if_neg (not_not_intro hp)] at hclaim
      simp only [rewardTotal_eq_claimSpec s3 d3 _ (le_of_lt hp) hdom3] at hclaim
      by_cases hv : s3.reward_vault <
          claimSpec s3 d3 (min (s3.current_period - d3.next_period + 1) s3.max_claim_delay)
      · rw [if_pos hv] at hclaim
        cases hclaim
      · rw [if_neg hv] at hclaim
        exact ((Prod.ext_iff.mp (Option.some.inj hclaim)).2).symm
    · rw [if_pos hp] at hclaim
      cases hclaim
  · have hmin : min (s3.current_period - d3.next_period + 1) s3.max_claim_delay ≤
        s3.current_period - d3.next_period + 1 := min_le_left _ _
    omega

/-- The freshly minted position of c6pre. -/
def c6id0 : Id :=
  { amounts_staked := [0], amounts_locked := [0], next_period := 1, locked_until := [none] }

/-- The state and reward produced by the claim of the C6 scenario. -/
def c6s4 : Staking :=
  ((update_id 604801 1 c2base).map Prod.fst).getD (Staking.new 0 0 1 false 0)

theorem C6_stake_period_eligibility_witness :
    ((100 : Instant) < c6pre.next_period ∧
      c6pre.ids 1 = some c6id0 ∧
      stake 100 1 (some (decOf 350)) 1 none c6pre = some c3base ∧
      (604801 : Instant) < c2base.next_period ∧ c2base.ids 1 = some c3id ∧
      (∀ a ∈ c2base.stakables, (c2base.stakes a).isSome) ∧
      c3id.next_period = c6pre.current_period + 1 ∧
      update_id 604801 1 c2base = some (c6s4, decOf 700)) ∧
    ((c3base.ids 1).map Id.next_period = some (c6pre.current_period + 1) ∧
      decOf 700 = claimSpec c2base c3id
        (min (c2base.current_period - c3id.next_period + 1) c2base.max_claim_delay) ∧
      c6pre.current_period ≤ c2base.current_period -
        min (c2base.current_period - c3id.next_period + 1) c2base.max_claim_delay) :=
  ⟨⟨by decide, by decide, rfl, by decide, by decide, by decide, by decide, rfl⟩,
    C6_stake_period_eligibility 100 1 (some (decOf 350)) 1 none c6pre c6id0
      c3base (by decide) (by decide) (by decide) rfl
      604801 c2base c3id c6s4 (decOf 700) (by decide) (by decide) (by decide) (by decide)
      (by decide) rfl⟩

/-! Operation syntax and a small-step trace semantics over the public entry
points, for the cross-operation claims C5 and C8. -/

/-- One public entry point invocation with its arguments (the clock time is
supplied separately). -/
inductive Op where
  | update_period
  | create_id
  | stake (address : Addr) (bucket : Option Dec) (id : Nat) (receipt : Option Nat)
  | start_unstake (id : Nat) (address : Addr) (amount : Dec) (unstake_all : Bool) (stake_transfer : Bool)
  | finish_unstake (rid : Nat)
  | update_id (id : Nat)
  | lock_stake (address : Addr) (id : Nat)
  | set_period_interval (v : Int)
  | fill_rewards (amt : Dec)
  | remove_rewards (amt : Dec)
  | set_max_claim_delay (v : Int)
  | set_unstake_delay (v : Int)
  | set_rewards (address : Addr) (v : Dec)
  | add_stakable (address : Addr) (reward : Dec) (lock : Lock)
  | edit_stakable (address : Addr) (reward : Dec) (lock : Lock)
  | set_next_period_to_now
  | set_lock (address : Addr) (lock_until : Instant) (id : Nat)
deriving DecidableEq

/-- Apply one operation at a given clock time, keeping the component state
and discarding any returned bucket. -/
def applyOp (now : Instant) (o : Op) (s : Staking) : Option Staking :=
  match o with
  | .update_period => update_period now s
  | .create_id => some (create_id s).1
  | .stake a b id r => stake now a b id r s
  | .start_unstake id a amt all tr => (start_unstake now id a amt all tr s).map Prod.fst
  | .finish_unstake rid => (finish_unstake now rid s).map Prod.fst
  | .update_id id => (update_id now id s).map Prod.fst
  | .lock_stake a id => (lock_stake now a id s).map Prod.fst
  | .set_period_interval v => some (set_period_interval v s)
  | .fill_rewards amt => some (fill_rewards amt s)
  | .remove_rewards amt => (remove_rewards amt s).map Prod.fst
  | .set_max_claim_delay v => some (set_max_claim_delay v s)
  | .set_unstake_delay v => set_unstake_delay v s
  | .set_rewards a v => set_rewards a v s
  | .add_stakable a r l => add_stakable a r l s
  | .edit_stakable a r l => edit_stakable a r l s
  | .set_next_period_to_now => some (set_next_period_to_now now s)
  | .set_lock a t id => set_lock a t id s

/-- A timed operation: the clock value at the call and the call itself. -/
abbrev TimedOp := Instant × Op

/-- Run a list of timed operations from a state; none when any call aborts. -/
def runFrom (s : Staking) : List TimedOp → Option Staking
  | [] => some s
  | (t, o) :: rest =>
    match applyOp t o s with
    | none => none
    | some s1 => runFrom s1 rest

/-! Field lemmas for claim C5. -/

lemma update_period_fields (now : Instant) (s s1 : Staking)
    (h : update_period now s = some s1) :
    s.current_period ≤ s1.current_period ∧
    s1.period_interval = s.period_interval ∧
    (0 < s.period_interval → s.next_period ≤ s1.next_period) := by
  by_cases h0 : s.period_interval * 86400 = 0
  · unfold update_period at h
    rw [if_pos h0] at h
    cases h
  · by_cases hle : s.next_period ≤ now
    · cases hf : freezeRates s.current_period s.stakables s.stakes with
      | none =>
        unfold update_period at h
        rw [if_neg h0, if_pos hle, hf] at h
        cases h
      | some m2 =>
        rw [update_period_eq_of_due now s h0 hle m2 hf] at h
        cases h
        refine ⟨?_, rfl, ?_⟩
        · show s.current_period ≤ s.current_period + 1
          omega
        · intro hI
          show s.next_period ≤ s.next_period + (1 + Int.fdiv (dDiv (decOf (now - s.next_period))
            (dMul (decOf s.period_interval) (decOf 86400))) decScale) * (s.period_interval * 86400)
          rw [extra_periods_eq (now - s.next_period) s.period_interval
            (Int.sub_nonneg.mpr hle) hI]
          have he : 0 ≤ Int.fdiv (now - s.next_period) (s.period_interval * 86400) :=
            Int.fdiv_nonneg (Int.sub_nonneg.mpr hle) (by positivity)
          have hm : 0 ≤ (1 + Int.fdiv (now - s.next_period) (s.period_interval * 86400)) *
              (s.period_interval * 86400) :=
            mul_nonneg (by omega) (by positivity)
          linarith
    · rw [update_period_eq_of_early now s h0 (not_le.mp hle)] at h
      cases h
      exact ⟨le_refl _, rfl, fun _ => le_refl _⟩

lemma check_indexes_fields (now : Instant) (id : Nat) (s s1 : Staking)
    (h : check_indexes now id s = some s1) :
    s.current_period ≤ s1.current_period ∧
    s1.period_interval = s.period_interval ∧
    (0 < s.period_interval → s.next_period ≤ s1.next_period) := by
  unfold check_indexes at h
  by_cases hle : s.next_period ≤ now
  · rw [if_pos hle] at h
    cases hup : update_period now s with
    | none =>
      simp only [hup] at h
      cases h
    | some sm =>
      simp only [hup] at h
      have hf := update_period_fields now s sm hup
      cases hi : sm.ids id with
      | none =>
        simp only [hi] at h
        cases h
      | some d =>
        simp only [hi] at h
        repeat' split at h
        all_goals try cases h
        all_goals exact ⟨hf.1, hf.2.1, hf.2.2⟩
  · rw [if_neg hle] at h
    cases hi : s.ids id with
    | none =>
      simp only [hi] at h
      cases h
    | some d =>
      simp only [hi] at h
      repeat' split at h
      all_goals try cases h
      all_goals exact ⟨le_refl _, rfl, fun _ => le_refl _⟩

lemma stake_fields (now : Instant) (a : Addr) (b : Option Dec) (id : Nat) (r : Option Nat)
    (s s2 : Staking) (h : stake now a b id r s = some s2) :
    ∃ s1, check_indexes now id s = some s1 ∧ s2.current_period = s1.current_period ∧
      s2.next_period = s1.next_period ∧ s2.period_interval = s1.period_interval := by
  unfold stake at h
  cases hc : check_indexes now id s with
  | none =>
    simp only [hc] at h
    cases h
  | some s1 =>
    simp only [hc] at h
    refine ⟨s1, rfl, ?_⟩
    repeat' split at h
    all_goals try cases h
    all_goals exact ⟨rfl, rfl, rfl⟩

lemma start_unstake_fields (now : Instant) (id : Nat) (a : Addr) (amt : Dec)
    (all tr : Bool) (s : Staking) (p : Staking × ReceiptOut)
    (h : start_unstake now id a amt all tr s = some p) :
    ∃ s1, check_indexes now id s = some s1 ∧ p.1.current_period = s1.current_period ∧
      p.1.next_period = s1.next_period ∧ p.1.period_interval = s1.period_interval := by
  unfold start_unstake at h
  cases hc : check_indexes now id s with
  | none =>
    simp only [hc] at h
    cases h
  | some s1 =>
    simp only [hc] at h
    refine ⟨s1, rfl, ?_⟩
    repeat' split at h
    all_goals try cases h
    all_goals exact ⟨rfl, rfl, rfl⟩

lemma update_id_fields (now : Instant) (id : Nat) (s : Staking) (p : Staking × Dec)
    (h : update_id now id s = some p) :
    ∃ s1, check_indexes now id s = some s1 ∧ p.1.current_period = s1.current_period ∧
      p.1.next_period = s1.next_period ∧ p.1.period_interval = s1.period_interval := by
  unfold update_id at h
  cases hc : check_indexes now id s with
  | none =>
    simp only [hc] at h
    cases h
  | some s1 =>
    simp only [hc] at h
    refine ⟨s1, rfl, ?_⟩
    repeat' split at h
    all_goals try cases h
    all_goals exact ⟨rfl, rfl, rfl⟩

lemma lock_stake_fields (now : Instant) (a : Addr) (id : Nat) (s : Staking)
    (p : Staking × Dec) (h : lock_stake now a id s = some p) :
    ∃ s1, check_indexes now id s = some s1 ∧ p.1.current_period = s1.current_period ∧
      p.1.next_period = s1.next_period ∧ p.1.period_interval = s1.period_interval := by
  unfold lock_stake at h
  cases hc : check_indexes now id s with
  | none =>
    simp only [hc] at h
    cases h
  | some s1 =>
    simp only [hc] at h
    refine ⟨s1, rfl, ?_⟩
    repeat' split at h
    all_goals try cases h
    all_goals exact ⟨rfl, rfl, rfl⟩

/-- Monotonicity of one operation: the current period never decreases; the
boundary never moves backward as long as the interval is positive and the
operation is neither set_next_period_to_now nor a set_period_interval with a
nonpositive argument; the interval stays positive under those conditions. -/
lemma applyOp_mono (now : Instant) (o : Op) (s s1 : Staking)
    (h : applyOp now o s = some s1) :
    s.current_period ≤ s1.current_period ∧
    ((∀ v, o = Op.set_period_interval v → 0 < v) → o ≠ Op.set_next_period_to_now →
      0 < s.period_interval → s.next_period ≤ s1.next_period ∧ 0 < s1.period_interval) := by
  cases o with
  | update_period =>
    have hf := update_period_fields now s s1 h
    exact ⟨hf.1, fun _ _ hI => ⟨hf.2.2 hI, by rw [hf.2.1]; exact hI⟩⟩
  | create_id =>
    cases h
    exact ⟨le_refl _, fun _ _ hI => ⟨le_refl _, hI⟩⟩
  | stake a b id r =>
    obtain ⟨sm, hc, h1, h2, h3⟩ := stake_fields now a b id r s s1 h
    have hf := check_indexes_fields now id s sm hc
    exact ⟨by omega, fun _ _ hI => ⟨by rw [h2]; exact hf.2.2 hI, by rw [h3, hf.2.1]; exact hI⟩⟩
  | start_unstake id a amt all tr =>
    simp only [applyOp, Option.map_eq_some'] at h
    obtain ⟨p, hp, rfl⟩ := h
    obtain ⟨sm, hc, h1, h2, h3⟩ := start_unstake_fields now id a amt all tr s p hp
    have hf := check_indexes_fields now id s sm hc
    exact ⟨by omega, fun _ _ hI => ⟨by rw [h2]; exact hf.2.2 hI, by rw [h3, hf.2.1]; exact hI⟩⟩
  | finish_unstake rid =>
    simp only [applyOp, Option.map_eq_some'] at h
    obtain ⟨p, hp, rfl⟩ := h
    unfold finish_unstake at hp
    repeat' split at hp
    all_goals try cases hp
    all_goals exact ⟨le_refl _, fun _ _ hI => ⟨le_refl _, hI⟩⟩
  | update_id id =>
    simp only [applyOp, Option.map_eq_some'] at h
    obtain ⟨p, hp, rfl⟩ := h
    obtain ⟨sm, hc, h1, h2, h3⟩ := update_id_fields now id s p hp
    have hf := check_indexes_fields now id s sm hc
    exact ⟨by omega, fun _ _ hI => ⟨by rw [h2]; exact hf.2.2 hI, by rw [h3, hf.2.1]; exact hI⟩⟩
  | lock_stake a id =>
    simp only [applyOp, Option.map_eq_some'] at h
    obtain ⟨p, hp, rfl⟩ := h
    obtain ⟨sm, hc, h1, h2, h3⟩ := lock_stake_fields now a id s p hp
    have hf := check_indexes_fields now id s sm hc
    exact ⟨by omega, fun _ _ hI => ⟨by rw [h2]; exact hf.2.2 hI, by rw [h3, hf.2.1]; exact hI⟩⟩
  | set_period_interval v =>
    cases h
    exact ⟨le_refl _, fun hv _ _ => ⟨le_refl _, hv v rfl⟩⟩
  | fill_rewards amt =>
    cases h
    exact ⟨le_refl _, fun _ _ hI => ⟨le_refl _, hI⟩⟩
  | remove_rewards amt =>
    simp only [applyOp, Option.map_eq_some'] at h
    obtain ⟨p, hp, rfl⟩ := h
    unfold remove_rewards at hp
    split at hp
    · cases hp
    · cases hp
      exact ⟨le_refl _, fun _ _ hI => ⟨le_refl _, hI⟩⟩
  | set_max_claim_delay v =>
    cases h
    exact ⟨le_refl _, fun _ _ hI => ⟨le_refl _, hI⟩⟩
  | set_unstake_delay v =>
    simp only [applyOp] at h
    unfold set_unstake_delay at h
    split at h
    · cases h
    · cases h
      exact ⟨le_refl _, fun _ _ hI => ⟨le_refl _, hI⟩⟩
  | set_rewards a v =>
    simp only [applyOp] at h
    unfold set_rewards at h
    repeat' split at h
    all_goals try cases h
    all_goals exact ⟨le_refl _, fun _ _ hI => ⟨le_refl _, hI⟩⟩
  | add_stakable a r l =>
    simp only [applyOp] at h
    unfold add_stakable at h
    repeat' split at h
    all_goals try cases h
    all_goals exact ⟨le_refl _, fun _ _ hI => ⟨le_refl _, hI⟩⟩
  | edit_stakable a r l =>
    simp only [applyOp] at h
    unfold edit_stakable at h
    repeat' split at h
    all_goals try cases h
    all_goals exact ⟨le_refl _, fun _ _ hI => ⟨le_refl _, hI⟩⟩
  | set_next_period_to_now =>
    cases h
    exact ⟨le_refl _, fun _ hne _ => absurd rfl hne⟩
  | set_lock a t id =>
    simp only [applyOp] at h
    unfold set_lock at h
    repeat' split at h
    all_goals try cases h
    all_goals exact ⟨le_refl _, fun _ _ hI => ⟨le_refl _, hI⟩⟩

/-- Trace condition excluding the two ways the boundary can be moved
backward: no set_next_period_to_now call and only positive arguments to
set_period_interval. -/
def noBackdate (tr : List TimedOp) : Bool :=
  tr.all fun top =>
    match top.2 with
    | Op.set_next_period_to_now => false
    | Op.set_period_interval v => decide (0 < v)
    | _ => true

/-- C5 amended: across every sequence of operations the current period never
decreases; and as long as the interval is positive, the next period boundary
never moves backward either, except through the admin entry point
set_next_period_to_now (or a set_period_interval call with a nonpositive
argument), which the noBackdate condition excludes. -/
theorem C5_period_monotonicity (s : Staking) (tr : List TimedOp) (s2 : Staking)
    (hrun : runFrom s tr = some s2) :
    s.current_period ≤ s2.current_period ∧
    (0 < s.period_interval → noBackdate tr = true →
      s.next_period ≤ s2.next_period ∧ 0 < s2.period_interval) := by
  induction tr generalizing s with
  | nil =>
    cases hrun
    exact ⟨le_refl _, fun hI _ => ⟨le_refl _, hI⟩⟩
  | cons top rest ih =>
    obtain ⟨t, o⟩ := top
    rw [runFrom] at hrun
    cases ha : applyOp t o s with
    | none =>
      rw [ha] at hrun
      cases hrun
    | some sm =>
      rw [ha] at hrun
      have hstep := applyOp_mono t o s sm ha
      have hrest := ih sm hrun
      constructor
      · exact le_trans hstep.1 hrest.1
      · intro hI hnb
        simp only [noBackdate, List.all_cons, Bool.and_eq_true] at hnb
        obtain ⟨ho, hrestb⟩ := hnb
        have hcond1 : ∀ v, o = Op.set_period_interval v → 0 < v := by
          intro v hv
          subst hv
          simpa using ho
        have hcond2 : o ≠ Op.set_next_period_to_now := by
          intro hv
          subst hv
          simp at ho
        obtain ⟨hn1, hI1⟩ := hstep.2 hcond1 hcond2 hI
        obtain ⟨hn2, hI2⟩ := hrest.2 hI1 (by simpa [noBackdate] using hrestb)
        exact ⟨le_trans hn1 hn2, hI2⟩

/-- A fresh component with interval 7 days, created at time 0. -/
def c5base : Staking := Staking.new 0 (decOf 1000) 7 false 100

/-- C5 counterexample: on the fresh component the boundary sits at time
604800; calling the admin method set_next_period_to_now at time 60 moves the
boundary backward to 60, so the claim that the boundary never moves backward
across any sequence of operations is false. -/
theorem C5_counterexample :
    (runFrom c5base [(60, Op.set_next_period_to_now)]).map Staking.next_period = some 60 ∧
    c5base.next_period = 604800 ∧ (60 : Int) < 604800 := by
  refine ⟨by decide, by decide, by decide⟩

/-- A backdate-free trace rolling one period and minting a position. -/
def c5trace : List TimedOp := [(604800, Op.update_period), (604801, Op.create_id)]

/-- The state reached by c5trace. -/
def c5w : Staking := (runFrom c5base c5trace).getD c5base

theorem C5_period_monotonicity_witness :
    runFrom c5base c5trace = some c5w ∧
    (c5base.current_period ≤ c5w.current_period ∧
     (0 < c5base.period_interval → noBackdate c5trace = true →
       c5base.next_period ≤ c5w.next_period ∧ 0 < c5w.period_interval)) :=
  ⟨rfl, C5_period_monotonicity c5base c5trace c5w rfl⟩

/-! Claim C8: conservation of staked amounts. -/

/-- The staked amount recorded at index i by position k (0 when the position
does not exist or its vector is too short). -/
def idAmt (s : Staking) (k : Nat) (i : Nat) : Dec :=
  match s.ids k with
  | some d => d.amounts_staked.getD i 0
  | none => 0

/-- Sum over all minted positions of the staked amount at index i. -/
def totalStakedAt (s : Staking) (i : Nat) : Dec :=
  ∑ k in Finset.range s.id_counter, idAmt s (k + 1) i

/-- The aggregate staked amount stored by the unit of the asset at index i. -/
def unitStakedAt (s : Staking) (i : Nat) : Dec :=
  match s.stakes (s.stakables.getD i 0) with
  | some u => u.staked_amount
  | none => 0

/-- Conservation: for every registered asset index, the stored aggregate
equals the sum over all positions of the staked amount at that index. -/
def conserved (s : Staking) : Prop :=
  ∀ i, i < s.stakables.length → unitStakedAt s i = totalStakedAt s i

instance (s : Staking) : Decidable (conserved s) :=
  Nat.decidableBallLT _ _

/-- Well-formedness carried through the conservation induction. -/
structure Inv (s : Staking) : Prop where
  ids_dom : ∀ k, (s.ids k).isSome → 1 ≤ k ∧ k ≤ s.id_counter
  ids_len : ∀ k d, s.ids k = some d → d.amounts_staked.length ≤ s.stakables.length
  nodup : s.stakables.Nodup
  stakes_dom : ∀ a ∈ s.stakables, (s.stakes a).isSome
  cons : conserved s

lemma getD_append_zero (l : List Dec) (n i : Nat) :
    (l ++ List.replicate n (0:Dec)).getD i 0 = l.getD i 0 := by
  rw [List.getD_eq_getElem?_getD, List.getD_eq_getElem?_getD]
  rcases Nat.lt_or_ge i l.length with h | h
  · rw [List.getElem?_append_left h]
  · rw [List.getElem?_append_right h, List.getElem?_eq_none h, List.getElem?_replicate]
    split <;> rfl

lemma getD_replicate_zero (n i : Nat) : (List.replicate n (0:Dec)).getD i 0 = 0 := by
  rw [List.getD_eq_getElem?_getD, List.getElem?_replicate]
  split <;> rfl

lemma getD_set_self (l : List Dec) (j : Nat) (v : Dec) (hj : j < l.length) :
    (l.set j v).getD j 0 = v := by
  rw [List.getD_eq_getElem?_getD, List.getElem?_set_self hj]
  rfl

lemma getD_set_ne (l : List Dec) (j i : Nat) (v : Dec) (h : i ≠ j) :
    (l.set j v).getD i 0 = l.getD i 0 := by
  rw [List.getD_eq_getElem?_getD, List.getD_eq_getElem?_getD,
    List.getElem?_set_ne (Ne.symm h)]

lemma getD_eq_zero_of_le (l : List Dec) (i : Nat) (h : l.length ≤ i) :
    l.getD i 0 = 0 := by
  rw [List.getD_eq_getElem?_getD, List.getElem?_eq_none h]
  rfl

lemma getD_mem_addr (l : List Addr) (i : Nat) (h : i < l.length) : l.getD i 0 ∈ l := by
  rw [List.getD_eq_getElem _ _ h]
  exact List.getElem_mem h

lemma position_getD {a : Addr} :
    ∀ {l : List Addr} {i : Nat}, position a l = some i → l.getD i 0 = a := by
  intro l
  induction l with
  | nil => intro i h; cases h
  | cons b rest ih =>
    intro i h
    rw [position] at h
    by_cases hb : b = a
    · rw [if_pos hb] at h
      cases h
      simpa using hb
    · rw [if_neg hb] at h
      cases hp : position a rest with
      | none => rw [hp] at h; cases h
      | some j =>
        rw [hp] at h
        cases h
        simpa using ih hp

lemma position_mem {a : Addr} {l : List Addr} {i : Nat} (h : position a l = some i) :
    a ∈ l := by
  have hg := position_getD h
  have hlt := position_lt_length h
  rw [← hg]
  exact getD_mem_addr l i hlt

lemma position_unique {a : Addr} :
    ∀ {l : List Addr}, l.Nodup → ∀ {i : Nat}, position a l = some i →
      ∀ j, j < l.length → l.getD j 0 = a → j = i := by
  intro l
  induction l with
  | nil =>
    intro _ i h
    cases h
  | cons b rest ih =>
    intro hnd i h j hj hget
    rw [position] at h
    by_cases hb : b = a
    · rw [if_pos hb] at h
      cases h
      cases j with
      | zero => rfl
      | succ m =>
        exfalso
        have hmem : a ∈ rest := by
          have hg : rest.getD m 0 = a := by simpa using hget
          rw [← hg]
          exact getD_mem_addr rest m (by simpa using hj)
        exact (List.nodup_cons.mp hnd).1 (hb ▸ hmem)
    · rw [if_neg hb] at h
      cases hp : position a rest with
      | none => rw [hp] at h; cases h
      | some i2 =>
        rw [hp] at h
        cases h
        cases j with
        | zero => exact absurd (by simpa using hget) hb
        | succ m =>
          have hm := ih (List.nodup_cons.mp hnd).2 hp m (by simpa using hj) (by simpa using hget)
          show m + 1 = i2 + 1
          omega

lemma sum_range_update (n : Nat) (f g : Nat → Dec) (j : Nat) (hj : j < n)
    (hagree : ∀ k, k ≠ j → f k = g k) :
    ∑ k in Finset.range n, g k = (∑ k in Finset.range n, f k) - f j + g j := by
  have hmem : j ∈ Finset.range n := Finset.mem_range.mpr hj
  have hg := Finset.add_sum_erase (Finset.range n) g hmem
  have hf := Finset.add_sum_erase (Finset.range n) f hmem
  have heq : ∑ x in (Finset.range n).erase j, g x = ∑ x in (Finset.range n).erase j, f x := by
    refine Finset.sum_congr rfl ?_
    intro x hx
    exact (hagree x (Finset.ne_of_mem_erase hx)).symm
  linarith

lemma unitShape_obs (p : Int) (o1 o2 : Option StakableUnit) (h : unitShape p o1 o2) :
    o2.isSome = o1.isSome ∧
    o2.map StakableUnit.staked_amount = o1.map StakableUnit.staked_amount := by
  cases o1 with
  | none =>
    cases o2 with
    | none => exact ⟨rfl, rfl⟩
    | some v => exact absurd h (by simp [unitShape])
  | some u =>
    cases o2 with
    | none => exact absurd h (by simp [unitShape])
    | some v =>
      obtain ⟨_, hstk, _⟩ := h
      exact ⟨rfl, by simp [hstk]⟩

/-- A state change that does not touch the registry, the position counter,
the per-position staked entries or the per-unit staked amounts preserves the
conservation invariant. -/
lemma inv_passive (s1 s2 : Staking) (hI : Inv s1)
    (hstakables : s2.stakables = s1.stakables)
    (hcounter : s2.id_counter = s1.id_counter)
    (hids_some : ∀ k, (s2.ids k).isSome = (s1.ids k).isSome)
    (hids_len : ∀ k d2, s2.ids k = some d2 → d2.amounts_staked.length ≤ s2.stakables.length)
    (hids_amounts : ∀ k i, idAmt s2 k i = idAmt s1 k i)
    (hstakes_some : ∀ a, (s2.stakes a).isSome = (s1.stakes a).isSome)
    (hstakes_staked : ∀ a, (s2.stakes a).map StakableUnit.staked_amount =
      (s1.stakes a).map StakableUnit.staked_amount) :
    Inv s2 := by
  refine ⟨?_, hids_len, hstakables ▸ hI.nodup, ?_, ?_⟩
  · intro k hk
    rw [hids_some k] at hk
    have := hI.ids_dom k hk
    omega
  · intro a ha
    rw [hstakes_some a]
    exact hI.stakes_dom a (hstakables ▸ ha)
  · intro i hi
    rw [hstakables] at hi
    have hu := hI.cons i hi
    have h1 : unitStakedAt s2 i = unitStakedAt s1 i := by
      unfold unitStakedAt
      rw [hstakables]
      have hobs := hstakes_staked (s1.stakables.getD i 0)
      cases h2 : s2.stakes (s1.stakables.getD i 0) with
      | none =>
        cases h3 : s1.stakes (s1.stakables.getD i 0) with
        | none => rfl
        | some u => rw [h2, h3] at hobs; cases hobs
      | some v =>
        cases h3 : s1.stakes (s1.stakables.getD i 0) with
        | none => rw [h2, h3] at hobs; cases hobs
        | some u => rw [h2, h3] at hobs; simpa using hobs
    have h2 : totalStakedAt s2 i = totalStakedAt s1 i := by
      unfold totalStakedAt
      rw [hcounter]
      exact Finset.sum_congr rfl fun k _ => hids_amounts (k + 1) i
    rw [h1, h2]
    exact hu

lemma update_period_inv (now : Instant) (s s1 : Staking)
    (h : update_period now s = some s1) (hI : Inv s) : Inv s1 := by
  by_cases h0 : s.period_interval * 86400 = 0
  · unfold update_period at h
    rw [if_pos h0] at h
    cases h
  · by_cases hle : s.next_period ≤ now
    · cases hf : freezeRates s.current_period s.stakables s.stakes with
      | none =>
        unfold update_period at h
        rw [if_neg h0, if_pos hle, hf] at h
        cases h
      | some m2 =>
        rw [update_period_eq_of_due now s h0 hle m2 hf] at h
        cases h
        have hsh := freezeRates_shape s.current_period s.stakables s.stakes m2 hf
        refine inv_passive s _ hI rfl rfl (fun k => rfl) ?_ (fun k i => rfl) ?_ ?_
        · intro k d2 hk
          exact hI.ids_len k d2 hk
        · intro a
          exact (unitShape_obs _ _ _ (hsh a)).1
        · intro a
          exact (unitShape_obs _ _ _ (hsh a)).2
    · rw [update_period_eq_of_early now s h0 (not_le.mp hle)] at h
      cases h
      exact hI

lemma check_indexes_inv (now : Instant) (id : Nat) (s sc : Staking)
    (h : check_indexes now id s = some sc) (hI : Inv s) :
    Inv sc ∧ ∀ d, sc.ids id = some d → d.amounts_staked.length = sc.stakables.length := by
  unfold check_indexes at h
  cases hstep : (if s.next_period ≤ now then update_period now s else some s) with
  | none =>
    rw [hstep] at h
    cases h
  | some sm =>
    rw [hstep] at h
    have hIm : Inv sm := by
      by_cases hle : s.next_period ≤ now
      · rw [if_pos hle] at hstep
        exact update_period_inv now s sm hstep hI
      · rw [if_neg hle] at hstep
        cases hstep
        exact hI
    cases hi : sm.ids id with
    | none =>
      simp only [hi] at h
      cases h
    | some d =>
      simp only [hi] at h
      by_cases hlen : d.amounts_staked.length = sm.stakables.length
      · rw [if_pos hlen] at h
        cases h
        refine ⟨hIm, ?_⟩
        intro d2 hd2
        rw [hi] at hd2
        cases hd2
        exact hlen
      · rw [if_neg hlen] at h
        by_cases hgt : sm.stakables.length < d.amounts_staked.length
        · rw [if_pos hgt] at h
          cases h
        · rw [if_neg hgt] at h
          cases h
          have hle2 : d.amounts_staked.length ≤ sm.stakables.length := not_lt.mp hgt
          constructor
          · refine inv_passive sm _ hIm rfl rfl ?_ ?_ ?_ (fun a => rfl) (fun a => rfl)
            · intro k
              by_cases hk : k = id
              · subst hk
                simp [hi]
              · simp [hk]
            · intro k d2 hd2
              by_cases hk : k = id
              · subst hk
                simp only [if_pos rfl] at hd2
                cases hd2
                show (d.amounts_staked ++ List.replicate _ (0:Dec)).length ≤ sm.stakables.length
                rw [List.length_append, List.length_replicate]
                omega
              · simp only [if_neg hk] at hd2
                exact hIm.ids_len k d2 hd2
            · intro k i
              unfold idAmt
              by_cases hk : k = id
              · subst hk
                simp only [if_pos rfl, hi]
                exact getD_append_zero _ _ i
              · simp only [if_neg hk]
          · intro d2 hd2
            simp only [if_pos rfl] at hd2
            cases hd2
            show (d.amounts_staked ++ List.replicate _ (0:Dec)).length = sm.stakables.length
            rw [List.length_append, List.length_replicate]
            omega

/-- A state change that bumps one position's staked entry at one index by
amt and the matching unit's aggregate by the same amt, leaving every other
position entry and unit aggregate unchanged, preserves the invariant. -/
lemma inv_of_shift (s1 s2 : Staking) (hI : Inv s1)
    (id : Nat) (address : Addr) (index : Nat) (amt : Dec)
    (hstakables : s2.stakables = s1.stakables)
    (hcounter : s2.id_counter = s1.id_counter)
    (hidx : position address s1.stakables = some index)
    (hex : (s1.ids id).isSome)
    (hids_some : ∀ k, (s2.ids k).isSome = (s1.ids k).isSome)
    (hids_len : ∀ k d2, s2.ids k = some d2 → d2.amounts_staked.length ≤ s2.stakables.length)
    (hids_amounts_other : ∀ k i, k ≠ id → idAmt s2 k i = idAmt s1 k i)
    (hids_amounts_id_other : ∀ i, i ≠ index → idAmt s2 id i = idAmt s1 id i)
    (hids_amounts_id : idAmt s2 id index = idAmt s1 id index + amt)
    (hstakes_other : ∀ a, a ≠ address → s2.stakes a = s1.stakes a)
    (hstakes_addr : (s2.stakes address).map StakableUnit.staked_amount =
      (s1.stakes address).map (fun u => u.staked_amount + amt)) :
    Inv s2 := by
  have hmem : address ∈ s1.stakables := position_mem hidx
  have hidlt : index < s1.stakables.length := position_lt_length hidx
  obtain ⟨u, hu⟩ := Option.isSome_iff_exists.mp (hI.stakes_dom address hmem)
  refine ⟨?_, hids_len, hstakables ▸ hI.nodup, ?_, ?_⟩
  · intro k hk
    rw [hids_some k] at hk
    have := hI.ids_dom k hk
    omega
  · intro a ha
    rw [hstakables] at ha
    by_cases haddr : a = address
    · subst haddr
      rw [hu] at hstakes_addr
      cases h2 : s2.stakes a with
      | none => rw [h2] at hstakes_addr; cases hstakes_addr
      | some v => rfl
    · rw [hstakes_other a haddr]
      exact hI.stakes_dom a ha
  · intro i hi
    rw [hstakables] at hi
    have hcons := hI.cons i hi
    have hjid := hI.ids_dom id hex
    by_cases hii : i = index
    · subst hii
      have hkey : s1.stakables.getD i 0 = address := position_getD hidx
      have h1 : unitStakedAt s2 i = u.staked_amount + amt := by
        unfold unitStakedAt
        rw [hstakables, hkey]
        rw [hu] at hstakes_addr
        cases h2 : s2.stakes address with
        | none => rw [h2] at hstakes_addr; cases hstakes_addr
        | some v => rw [h2] at hstakes_addr; simpa using hstakes_addr
      have h2 : totalStakedAt s2 i = totalStakedAt s1 i + amt := by
        unfold totalStakedAt
        rw [hcounter]
        have hupd := sum_range_update s1.id_counter (fun k => idAmt s1 (k + 1) i)
          (fun k => idAmt s2 (k + 1) i) (id - 1) (by omega) ?_
        · simp only [] at hupd
          have hposid : id - 1 + 1 = id := by omega
          rw [hposid] at hupd
          rw [hupd, hids_amounts_id]
          ring
        · intro k hk
          exact (hids_amounts_other (k + 1) i (by omega)).symm
      unfold unitStakedAt at hcons
      rw [hkey, hu] at hcons
      rw [h1, h2, ← hcons]
    · have hkeyne : s1.stakables.getD i 0 ≠ address := by
        intro heq
        exact hii (position_unique hI.nodup hidx i hi heq)
      have h1 : unitStakedAt s2 i = unitStakedAt s1 i := by
        unfold unitStakedAt
        rw [hstakables, hstakes_other _ hkeyne]
      have h2 : totalStakedAt s2 i = totalStakedAt s1 i := by
        unfold totalStakedAt
        rw [hcounter]
        refine Finset.sum_congr rfl ?_
        intro k hk
        by_cases hkid : k + 1 = id
        · rw [hkid]
          exact hids_amounts_id_other i hii
        · exact hids_amounts_other (k + 1) i hkid
      rw [h1, h2]
      exact hcons

lemma unitStakedAt_of_some (s : Staking) (i : Nat) (u : StakableUnit)
    (h : s.stakes (s.stakables.getD i 0) = some u) :
    unitStakedAt s i = u.staked_amount := by
  unfold unitStakedAt
  rw [h]

lemma unitStakedAt_of_none (s : Staking) (i : Nat)
    (h : s.stakes (s.stakables.getD i 0) = none) :
    unitStakedAt s i = 0 := by
  unfold unitStakedAt
  rw [h]

lemma idAmt_of_some (s : Staking) (k : Nat) (d : Id) (h : s.ids k = some d) (i : Nat) :
    idAmt s k i = d.amounts_staked.getD i 0 := by
  unfold idAmt
  rw [h]

lemma idAmt_of_none (s : Staking) (k : Nat) (h : s.ids k = none) (i : Nat) :
    idAmt s k i = 0 := by
  unfold idAmt
  rw [h]

lemma unitStakedAt_congr (s2 s : Staking) (i : Nat)
    (hstakables : s2.stakables = s.stakables)
    (hstakes : ∀ a, s2.stakes a = s.stakes a) :
    unitStakedAt s2 i = unitStakedAt s i := by
  unfold unitStakedAt
  rw [hstakables, hstakes]

lemma inv_congr (s1 s2 : Staking) (hI : Inv s1)
    (h1 : s2.stakables = s1.stakables) (h2 : s2.id_counter = s1.id_counter)
    (h3 : s2.ids = s1.ids) (h4 : s2.stakes = s1.stakes) : Inv s2 := by
  refine ⟨?_, ?_, h1 ▸ hI.nodup, ?_, ?_⟩
  · intro k hk
    rw [h3] at hk
    have := hI.ids_dom k hk
    omega
  · intro k d2 hd2
    rw [h3] at hd2
    rw [h1]
    exact hI.ids_len k d2 hd2
  · intro a ha
    rw [h4]
    exact hI.stakes_dom a (h1 ▸ ha)
  · intro i hi
    rw [h1] at hi
    have hu : unitStakedAt s2 i = unitStakedAt s1 i :=
      unitStakedAt_congr s2 s1 i h1 (fun a => by rw [h4])
    have ht : totalStakedAt s2 i = totalStakedAt s1 i := by
      unfold totalStakedAt idAmt
      rw [h2, h3]
    rw [hu, ht]
    exact hI.cons i hi

lemma totalStakedAt_succ (s2 s : Staking) (i : Nat)
    (hc : s2.id_counter = s.id_counter + 1)
    (hold : ∀ k, k ≠ s.id_counter + 1 → s2.ids k = s.ids k)
    (hnew : idAmt s2 (s.id_counter + 1) i = 0) :
    totalStakedAt s2 i = totalStakedAt s i := by
  unfold totalStakedAt
  rw [hc, Finset.sum_range_succ]
  have hsum : ∑ k in Finset.range s.id_counter, idAmt s2 (k + 1) i =
      ∑ k in Finset.range s.id_counter, idAmt s (k + 1) i := by
    refine Finset.sum_congr rfl ?_
    intro k hk
    have hklt := Finset.mem_range.mp hk
    unfold idAmt
    rw [hold (k + 1) (by omega)]
  rw [hsum, hnew, add_zero]

lemma inv_create (s : Staking) (hI : Inv s) : Inv (create_id s).1 := by
  refine ⟨?_, ?_, hI.nodup, hI.stakes_dom, ?_⟩
  · intro k hk
    show 1 ≤ k ∧ k ≤ s.id_counter + 1
    by_cases hkc : k = s.id_counter + 1
    · omega
    · have hk2 : (s.ids k).isSome := by
        simpa [create_id, hkc] using hk
      have := hI.ids_dom k hk2
      omega
  · intro k d2 hd2
    show d2.amounts_staked.length ≤ s.stakables.length
    by_cases hkc : k = s.id_counter + 1
    · subst hkc
      simp only [create_id, if_pos rfl] at hd2
      cases hd2
      simp
    · simp only [create_id, if_neg hkc] at hd2
      exact hI.ids_len k d2 hd2
  · intro i hi
    have hhi : i < s.stakables.length := hi
    have h1 : unitStakedAt (create_id s).1 i = unitStakedAt s i :=
      unitStakedAt_congr _ s i rfl (fun a => rfl)
    have h2 : totalStakedAt (create_id s).1 i = totalStakedAt s i := by
      refine totalStakedAt_succ _ s i rfl ?_ ?_
      · intro k hk
        show (if k = s.id_counter + 1 then _ else s.ids k) = s.ids k
        rw [if_neg hk]
      · have hids : (create_id s).1.ids (s.id_counter + 1) =
            some { amounts_staked := List.replicate s.stakables.length 0
                   amounts_locked := List.replicate s.stakables.length 0
                   next_period := s.current_period + 1
                   locked_until := List.replicate s.stakables.length none } := by
          show (if s.id_counter + 1 = s.id_counter + 1 then _ else s.ids (s.id_counter + 1)) = _
          rw [if_pos rfl]
        rw [idAmt_of_some _ _ _ hids]
        exact getD_replicate_zero _ _
    show unitStakedAt _ i = totalStakedAt _ i
    rw [h1, h2]
    exact hI.cons i hhi

lemma getD_append_left_addr (l l2 : List Addr) (i : Nat) (h : i < l.length) :
    (l ++ l2).getD i 0 = l.getD i 0 := by
  rw [List.getD_eq_getElem?_getD, List.getD_eq_getElem?_getD, List.getElem?_append_left h]

lemma inv_add (s : Staking) (a0 : Addr) (r : Dec) (lk : Lock) (hI : Inv s)
    (hfresh : a0 ∉ s.stakables) :
    Inv (add_stakable_fresh a0 r lk s) := by
  refine ⟨?_, ?_, ?_, ?_, ?_⟩
  · intro k hk
    exact hI.ids_dom k hk
  · intro k d2 hd2
    have := hI.ids_len k d2 hd2
    show d2.amounts_staked.length ≤ (s.stakables ++ [a0]).length
    rw [List.length_append]
    omega
  · show (s.stakables ++ [a0]).Nodup
    rw [List.nodup_append]
    refine ⟨hI.nodup, List.nodup_singleton a0, ?_⟩
    intro x hx hx0
    rw [List.mem_singleton] at hx0
    subst hx0
    exact hfresh hx
  · intro a ha
    show (if a = a0 then _ else s.stakes a).isSome
    by_cases haa : a = a0
    · simp [haa]
    · rw [if_neg haa]
      rw [show (add_stakable_fresh a0 r lk s).stakables = s.stakables ++ [a0] from rfl] at ha
      rcases List.mem_append.mp ha with h1 | h1
      · exact hI.stakes_dom a h1
      · rw [List.mem_singleton] at h1
        exact absurd h1 haa
  · intro i hi
    show unitStakedAt _ i = totalStakedAt _ i
    have hlen : i < s.stakables.length + 1 := by
      simpa [add_stakable_fresh] using hi
    have htot : totalStakedAt (add_stakable_fresh a0 r lk s) i = totalStakedAt s i := by
      unfold totalStakedAt idAmt
      rfl
    rcases Nat.lt_or_ge i s.stakables.length with hlt | hge
    · have hkey : (s.stakables ++ [a0]).getD i 0 = s.stakables.getD i 0 :=
        getD_append_left_addr _ _ i hlt
      have hne : s.stakables.getD i 0 ≠ a0 := by
        intro heq
        exact hfresh (heq ▸ getD_mem_addr s.stakables i hlt)
      have hstep : (add_stakable_fresh a0 r lk s).stakes
          ((add_stakable_fresh a0 r lk s).stakables.getD i 0) = s.stakes (s.stakables.getD i 0) := by
        show (if (s.stakables ++ [a0]).getD i 0 = a0 then _
            else s.stakes ((s.stakables ++ [a0]).getD i 0)) = _
        rw [hkey, if_neg hne]
      have huni : unitStakedAt (add_stakable_fresh a0 r lk s) i = unitStakedAt s i := by
        cases hu : s.stakes (s.stakables.getD i 0) with
        | none =>
          rw [unitStakedAt_of_none _ i (hstep.trans hu), unitStakedAt_of_none s i hu]
        | some u =>
          rw [unitStakedAt_of_some _ i u (hstep.trans hu), unitStakedAt_of_some s i u hu]
      rw [huni, htot]
      exact hI.cons i hlt
    · have hieq : i = s.stakables.length := by omega
      subst hieq
      have hkey : (s.stakables ++ [a0]).getD s.stakables.length 0 = a0 := by
        rw [List.getD_eq_getElem?_getD, List.getElem?_concat_length]
        rfl
      have hstep : (add_stakable_fresh a0 r lk s).stakes
          ((add_stakable_fresh a0 r lk s).stakables.getD s.stakables.length 0) =
          some { address := a0, staked_amount := 0, vault := 0, reward_amount := r,
                 lock := lk, rewards := fun _ => none } := by
        show (if (s.stakables ++ [a0]).getD s.stakables.length 0 = a0 then _
            else s.stakes ((s.stakables ++ [a0]).getD s.stakables.length 0)) = _
        rw [hkey, if_pos rfl]
      have huni : unitStakedAt (add_stakable_fresh a0 r lk s) s.stakables.length = 0 :=
        unitStakedAt_of_some _ _ _ hstep
      have htot0 : totalStakedAt s s.stakables.length = 0 := by
        unfold totalStakedAt
        refine Finset.sum_eq_zero ?_
        intro k hk
        unfold idAmt
        cases hd : s.ids (k + 1) with
        | none => rfl
        | some d =>
          exact getD_eq_zero_of_le _ _ (hI.ids_len (k + 1) d hd)
      rw [huni, htot, htot0]

lemma stake_inv (now : Instant) (address : Addr) (b : Option Dec) (id : Nat)
    (rc : Option Nat) (s s2 : Staking) (hI : Inv s)
    (h : stake now address b id rc s = some s2) : Inv s2 := by
  unfold stake at h
  cases hc : check_indexes now id s with
  | none => simp only [hc] at h; cases h
  | some sc =>
    simp only [hc] at h
    obtain ⟨hIc, hlenc⟩ := check_indexes_inv now id s sc hc hI
    cases hd : sc.ids id with
    | none => simp only [hd] at h; cases h
    | some d =>
      simp only [hd] at h
      cases hidx : position address sc.stakables with
      | none => simp only [hidx] at h; cases h
      | some index =>
        simp only [hidx] at h
        by_cases hg : sc.current_period ≤ d.next_period
        · rw [if_neg (not_not_intro hg)] at h
          cases hu : sc.stakes address with
          | none => simp only [hu] at h; cases h
          | some u =>
            simp only [hu] at h
            have hdlen : d.amounts_staked.length = sc.stakables.length := hlenc d hd
            have hil : index < sc.stakables.length := position_lt_length hidx
            have hill : index < d.amounts_staked.length := by rw [hdlen]; exact hil
            have hrec : ∀ (ramt : Dec) (rcpts : Nat → Option StakeTransferReceipt),
                Inv { sc with
                  stakes := fun k => if k = address then
                      some { u with
                          vault := u.vault + b.getD 0
                          staked_amount := u.staked_amount + (b.getD 0 + ramt) }
                    else sc.stakes k
                  stake_transfer_receipts := rcpts
                  ids := fun k => if k = id then
                      some { d with
                        amounts_staked := d.amounts_staked.set index
                          (d.amounts_staked.getD index 0 + (b.getD 0 + ramt))
                        next_period := sc.current_period + 1 }
                    else sc.ids k } := by
              intro ramt rcpts
              refine inv_of_shift sc _ hIc id address index (b.getD 0 + ramt) rfl rfl hidx
                (by rw [hd]; rfl) ?_ ?_ ?_ ?_ ?_ ?_ ?_
              · intro k
                simp only []
                by_cases hk : k = id
                · subst hk
                  rw [if_pos rfl, hd]
                  rfl
                · rw [if_neg hk]
              · intro k d2 hd2
                simp only [] at hd2
                by_cases hk : k = id
                · subst hk
                  rw [if_pos rfl] at hd2
                  cases hd2
                  simp only [List.length_set]
                  exact le_of_eq hdlen
                · rw [if_neg hk] at hd2
                  exact hIc.ids_len k d2 hd2
              · intro k i hk
                unfold idAmt
                simp only []
                rw [if_neg hk]
              · intro i hi
                unfold idAmt
                simp only []
                rw [if_pos trivial, hd]
                exact getD_set_ne _ _ _ _ hi
              · unfold idAmt
                simp only []
                rw [if_pos trivial, hd]
                exact getD_set_self _ _ _ hill
              · intro a ha
                simp only []
                rw [if_neg ha]
              · simp only []
                rw [if_pos trivial, hu]
                rfl
            cases rc with
            | none =>
              simp only [] at h
              cases h
              exact hrec 0 sc.stake_transfer_receipts
            | some rid =>
              cases hr : sc.stake_transfer_receipts rid with
              | none => simp only [hr] at h; cases h
              | some rr =>
                simp only [hr] at h
                by_cases hra : rr.address = address
                · rw [if_pos hra] at h
                  simp only [] at h
                  cases h
                  exact hrec rr.amount _
                · rw [if_neg hra] at h
                  simp only [] at h
                  cases h
        · rw [if_pos hg] at h
          cases h

lemma start_unstake_inv (now : Instant) (id : Nat) (address : Addr) (amt0 : Dec)
    (all tr : Bool) (s : Staking) (p : Staking × ReceiptOut) (hI : Inv s)
    (h : start_unstake now id address amt0 all tr s = some p) : Inv p.1 := by
  unfold start_unstake at h
  cases hc : check_indexes now id s with
  | none => simp only [hc] at h; cases h
  | some sc =>
    simp only [hc] at h
    obtain ⟨hIc, hlenc⟩ := check_indexes_inv now id s sc hc hI
    cases hd : sc.ids id with
    | none => simp only [hd] at h; cases h
    | some d =>
      simp only [hd] at h
      cases hidx : position address sc.stakables with
      | none => simp only [hidx] at h; cases h
      | some index =>
        simp only [hidx] at h
        have hdlen : d.amounts_staked.length = sc.stakables.length := hlenc d hd
        have hil : index < sc.stakables.length := position_lt_length hidx
        have hill : index < d.amounts_staked.length := by rw [hdlen]; exact hil
        by_cases hpos : 0 < d.amounts_staked.getD index 0
        · rw [if_neg (not_not_intro hpos)] at h
          by_cases hlk : (match d.locked_until.getD index none with
            | some t => decide (t ≤ now)
            | none => true) = true
          · rw [if_neg (not_not_intro hlk)] at h
            cases hu : sc.stakes address with
            | none => simp only [hu] at h; cases h
            | some u =>
              simp only [hu] at h
              have hrec : ∀ (amount : Dec) (staked1 : List Dec),
                  staked1.getD index 0 = d.amounts_staked.getD index 0 - amount →
                  (∀ i, i ≠ index → staked1.getD i 0 = d.amounts_staked.getD i 0) →
                  staked1.length = d.amounts_staked.length →
                  Inv { sc with
                    stakes := fun k => if k = address then
                        some { u with staked_amount := u.staked_amount - amount }
                      else sc.stakes k
                    ids := fun k => if k = id then some { d with amounts_staked := staked1 }
                      else sc.ids k } := by
                intro amount staked1 h1 h2 h3
                refine inv_of_shift sc _ hIc id address index (-amount) rfl rfl hidx
                  (by rw [hd]; rfl) ?_ ?_ ?_ ?_ ?_ ?_ ?_
                · intro k
                  simp only []
                  by_cases hk : k = id
                  · subst hk
                    rw [if_pos rfl, hd]
                    rfl
                  · rw [if_neg hk]
                · intro k d2 hd2
                  simp only [] at hd2
                  by_cases hk : k = id
                  · subst hk
                    rw [if_pos rfl] at hd2
                    cases hd2
                    simp only []
                    rw [h3]
                    exact le_of_eq hdlen
                  · rw [if_neg hk] at hd2
                    exact hIc.ids_len k d2 hd2
                · intro k i hk
                  unfold idAmt
                  simp only []
                  rw [if_neg hk]
                · intro i hi
                  unfold idAmt
                  simp only []
                  rw [if_pos trivial, hd]
                  exact h2 i hi
                · unfold idAmt
                  simp only []
                  rw [if_pos trivial, hd]
                  show staked1.getD index 0 = d.amounts_staked.getD index 0 + -amount
                  rw [h1]
                  ring
                · intro a ha
                  simp only []
                  rw [if_neg ha]
                · simp only []
                  rw [if_pos trivial, hu]
                  simp only [Option.map]
                  rw [sub_eq_add_neg]
              generalize hA : (if all = true then d.amounts_staked.getD index 0 else amt0) = A at h
              by_cases hcl : d.amounts_staked.getD index 0 ≤ A
              · simp only [if_pos hcl] at h
                repeat' split at h
                all_goals try cases h
                all_goals exact inv_congr _ _ (hrec (d.amounts_staked.getD index 0)
                  (d.amounts_staked.set index 0)
                  (by rw [getD_set_self _ _ _ hill]; ring)
                  (fun i hi => getD_set_ne _ _ _ _ hi)
                  (List.length_set _ _ _)) rfl rfl rfl rfl
              · simp only [if_neg hcl] at h
                repeat' split at h
                all_goals try cases h
                all_goals exact inv_congr _ _ (hrec A
                  (d.amounts_staked.set index (d.amounts_staked.getD index 0 - A))
                  (getD_set_self _ _ _ hill)
                  (fun i hi => getD_set_ne _ _ _ _ hi)
                  (List.length_set _ _ _)) rfl rfl rfl rfl
          · rw [if_pos hlk] at h
            cases h
        · rw [if_pos hpos] at h
          cases h

lemma finish_unstake_inv (now : Instant) (rid : Nat) (s : Staking)
    (p : Staking × (Addr × Dec)) (hI : Inv s)
    (h : finish_unstake now rid s = some p) : Inv p.1 := by
  unfold finish_unstake at h
  cases hr : s.unstake_receipts rid with
  | none => simp only [hr] at h; cases h
  | some r =>
    simp only [hr] at h
    by_cases ht : r.redemption_time ≤ now
    · rw [if_neg (not_not_intro ht)] at h
      cases hu : s.stakes r.address with
      | none => simp only [hu] at h; cases h
      | some u =>
        simp only [hu] at h
        by_cases hv : u.vault < r.amount
        · rw [if_pos hv] at h
          cases h
        · rw [if_neg hv] at h
          cases h
          refine inv_passive s _ hI rfl rfl (fun k => rfl)
            (fun k d2 hd2 => hI.ids_len k d2 hd2) (fun k i => rfl) ?_ ?_
          · intro a
            simp only []
            by_cases ha : a = r.address
            · subst ha
              rw [if_pos rfl, hu]
              all_goals rfl
            · rw [if_neg ha]
          · intro a
            simp only []
            by_cases ha : a = r.address
            · subst ha
              rw [if_pos rfl, hu]
              rfl
            · rw [if_neg ha]
    · rw [if_pos ht] at h
      cases h

lemma inv_cursor (sc : Staking) (hIc : Inv sc) (id : Nat) (d : Id) (np : Int) (rv : Dec)
    (hd : sc.ids id = some d)
    (hlen : d.amounts_staked.length ≤ sc.stakables.length) :
    Inv { sc with
      ids := fun k => if k = id then some { d with next_period := np } else sc.ids k
      reward_vault := rv } := by
  refine inv_passive sc _ hIc rfl rfl ?_ ?_ ?_ (fun a => rfl) (fun a => rfl)
  · intro k
    simp only []
    by_cases hk : k = id
    · subst hk
      rw [if_pos rfl, hd]
      all_goals rfl
    · rw [if_neg hk]
  · intro k d2 hd2
    simp only [] at hd2
    by_cases hk : k = id
    · subst hk
      rw [if_pos rfl] at hd2
      cases hd2
      exact hlen
    · rw [if_neg hk] at hd2
      exact hIc.ids_len k d2 hd2
  · intro k i
    unfold idAmt
    simp only []
    by_cases hk : k = id
    · subst hk
      rw [if_pos rfl, hd]
    · rw [if_neg hk]

lemma update_id_inv (now : Instant) (id : Nat) (s : Staking) (p : Staking × Dec)
    (hI : Inv s) (h : update_id now id s = some p) : Inv p.1 := by
  unfold update_id at h
  cases hc : check_indexes now id s with
  | none => simp only [hc] at h; cases h
  | some sc =>
    simp only [hc] at h
    obtain ⟨hIc, hlenc⟩ := check_indexes_inv now id s sc hc hI
    cases hd : sc.ids id with
    | none => simp only [hd] at h; cases h
    | some d =>
      simp only [hd] at h
      repeat' split at h
      all_goals try cases h
      all_goals exact inv_cursor sc hIc id d _ _ hd (le_of_eq (hlenc d hd))

lemma lock_stake_inv (now : Instant) (address : Addr) (id : Nat) (s : Staking)
    (p : Staking × Dec) (hI : Inv s)
    (h : lock_stake now address id s = some p) : Inv p.1 := by
  unfold lock_stake at h
  cases hc : check_indexes now id s with
  | none => simp only [hc] at h; cases h
  | some sc =>
    simp only [hc] at h
    obtain ⟨hIc, hlenc⟩ := check_indexes_inv now id s sc hc hI
    cases hidx : position address sc.stakables with
    | none => simp only [hidx] at h; cases h
    | some index =>
      simp only [hidx] at h
      cases hu : sc.stakes address with
      | none => simp only [hu] at h; cases h
      | some u =>
        simp only [hu] at h
        cases hd : sc.ids id with
        | none => simp only [hd] at h; cases h
        | some d =>
          simp only [hd] at h
          repeat' split at h
          all_goals try cases h
          all_goals refine inv_passive sc _ hIc rfl rfl ?_ ?_ ?_ (fun a => rfl) (fun a => rfl)
          all_goals intro k
          all_goals try intro d2 hd2
          · simp only []
            by_cases hk : k = id
            · subst hk
              rw [if_pos rfl, hd]
              all_goals rfl
            · rw [if_neg hk]
          · simp only [] at hd2
            by_cases hk : k = id
            · subst hk
              rw [if_pos rfl] at hd2
              cases hd2
              exact le_of_eq (hlenc d hd)
            · rw [if_neg hk] at hd2
              exact hIc.ids_len k d2 hd2
          · intro i
            unfold idAmt
            simp only []
            by_cases hk : k = id
            · subst hk
              rw [if_pos rfl, hd]
            · rw [if_neg hk]

lemma set_rewards_inv (address : Addr) (v : Dec) (s s1 : Staking) (hI : Inv s)
    (h : set_rewards address v s = some s1) : Inv s1 := by
  unfold set_rewards at h
  cases hu : s.stakes address with
  | none => simp only [hu] at h; cases h
  | some u =>
    simp only [hu] at h
    cases h
    refine inv_passive s _ hI rfl rfl (fun k => rfl)
      (fun k d2 hd2 => hI.ids_len k d2 hd2) (fun k i => rfl) ?_ ?_
    · intro a
      simp only []
      by_cases ha : a = address
      · subst ha
        rw [if_pos rfl, hu]
        all_goals rfl
      · rw [if_neg ha]
    · intro a
      simp only []
      by_cases ha : a = address
      · subst ha
        rw [if_pos rfl, hu]
        rfl
      · rw [if_neg ha]

lemma edit_stakable_inv (address : Addr) (r : Dec) (lk : Lock) (s s1 : Staking) (hI : Inv s)
    (h : edit_stakable address r lk s = some s1) : Inv s1 := by
  unfold edit_stakable at h
  cases hu : s.stakes address with
  | none => simp only [hu] at h; cases h
  | some u =>
    simp only [hu] at h
    cases h
    refine inv_passive s _ hI rfl rfl (fun k => rfl)
      (fun k d2 hd2 => hI.ids_len k d2 hd2) (fun k i => rfl) ?_ ?_
    · intro a
      simp only []
      by_cases ha : a = address
      · subst ha
        rw [if_pos rfl, hu]
        all_goals rfl
      · rw [if_neg ha]
    · intro a
      simp only []
      by_cases ha : a = address
      · subst ha
        rw [if_pos rfl, hu]
        rfl
      · rw [if_neg ha]

lemma set_lock_inv (address : Addr) (t : Instant) (id : Nat) (s s1 : Staking) (hI : Inv s)
    (h : set_lock address t id s = some s1) : Inv s1 := by
  unfold set_lock at h
  by_cases hdao : s.dao_controlled = true
  · rw [if_neg (not_not_intro hdao)] at h
    cases hd : s.ids id with
    | none => simp only [hd] at h; cases h
    | some d =>
      simp only [hd] at h
      cases hidx : position address s.stakables with
      | none => simp only [hidx] at h; cases h
      | some index =>
        simp only [hidx] at h
        by_cases hlen2 : d.locked_until.length ≤ index
        · rw [if_pos hlen2] at h
          cases h
        · rw [if_neg hlen2] at h
          cases h
          refine inv_passive s _ hI rfl rfl ?_ ?_ ?_ (fun a => rfl) (fun a => rfl)
          · intro k
            simp only []
            by_cases hk : k = id
            · subst hk
              rw [if_pos rfl, hd]
              all_goals rfl
            · rw [if_neg hk]
          · intro k d2 hd2
            simp only [] at hd2
            by_cases hk : k = id
            · subst hk
              rw [if_pos rfl] at hd2
              cases hd2
              exact hI.ids_len _ d hd
            · rw [if_neg hk] at hd2
              exact hI.ids_len k d2 hd2
          · intro k i
            unfold idAmt
            simp only []
            by_cases hk : k = id
            · subst hk
              rw [if_pos rfl, hd]
            · rw [if_neg hk]
  · rw [if_pos hdao] at h
    cases h

lemma applyOp_inv (now : Instant) (o : Op) (s s1 : Staking) (hI : Inv s)
    (h : applyOp now o s = some s1) : Inv s1 := by
  cases o with
  | update_period => exact update_period_inv now s s1 h hI
  | create_id =>
    simp only [applyOp] at h
    cases h
    exact inv_create s hI
  | stake a b id r => exact stake_inv now a b id r s s1 hI h
  | start_unstake id a amt all str =>
    simp only [applyOp] at h
    cases hp : start_unstake now id a amt all str s with
    | none => rw [hp] at h; simp only [Option.map] at h; cases h
    | some p =>
      rw [hp] at h
      simp only [Option.map] at h
      cases h
      exact start_unstake_inv now id a amt all str s p hI hp
  | finish_unstake rid =>
    simp only [applyOp] at h
    cases hp : finish_unstake now rid s with
    | none => rw [hp] at h; simp only [Option.map] at h; cases h
    | some p =>
      rw [hp] at h
      simp only [Option.map] at h
      cases h
      exact finish_unstake_inv now rid s p hI hp
  | update_id id =>
    simp only [applyOp] at h
    cases hp : update_id now id s with
    | none => rw [hp] at h; simp only [Option.map] at h; cases h
    | some p =>
      rw [hp] at h
      simp only [Option.map] at h
      cases h
      exact update_id_inv now id s p hI hp
  | lock_stake a id =>
    simp only [applyOp] at h
    cases hp : lock_stake now a id s with
    | none => rw [hp] at h; simp only [Option.map] at h; cases h
    | some p =>
      rw [hp] at h
      simp only [Option.map] at h
      cases h
      exact lock_stake_inv now a id s p hI hp
  | set_period_interval v =>
    simp only [applyOp] at h
    cases h
    exact inv_passive s _ hI rfl rfl (fun k => rfl)
      (fun k d2 hd2 => hI.ids_len k d2 hd2) (fun k i => rfl) (fun a => rfl) (fun a => rfl)
  | fill_rewards amt =>
    simp only [applyOp] at h
    cases h
    exact inv_passive s _ hI rfl rfl (fun k => rfl)
      (fun k d2 hd2 => hI.ids_len k d2 hd2) (fun k i => rfl) (fun a => rfl) (fun a => rfl)
  | remove_rewards amt =>
    simp only [applyOp] at h
    unfold remove_rewards at h
    split at h
    · simp only [Option.map] at h
      cases h
    · simp only [Option.map] at h
      cases h
      exact inv_passive s _ hI rfl rfl (fun k => rfl)
        (fun k d2 hd2 => hI.ids_len k d2 hd2) (fun k i => rfl) (fun a => rfl) (fun a => rfl)
  | set_max_claim_delay v =>
    simp only [applyOp] at h
    cases h
    exact inv_passive s _ hI rfl rfl (fun k => rfl)
      (fun k d2 hd2 => hI.ids_len k d2 hd2) (fun k i => rfl) (fun a => rfl) (fun a => rfl)
  | set_unstake_delay v =>
    simp only [applyOp] at h
    unfold set_unstake_delay at h
    split at h
    · cases h
    · cases h
      exact inv_passive s _ hI rfl rfl (fun k => rfl)
        (fun k d2 hd2 => hI.ids_len k d2 hd2) (fun k i => rfl) (fun a => rfl) (fun a => rfl)
  | set_rewards a v => exact set_rewards_inv a v s s1 hI h
  | add_stakable a r l =>
    simp only [applyOp] at h
    unfold add_stakable at h
    cases hu : s.stakes a with
    | some u =>
      simp only [hu] at h
      cases h
    | none =>
      simp only [hu] at h
      cases h
      refine inv_add s a r l hI ?_
      intro hmem
      have hd := hI.stakes_dom a hmem
      rw [hu] at hd
      cases hd
  | edit_stakable a r l => exact edit_stakable_inv a r l s s1 hI h
  | set_next_period_to_now =>
    simp only [applyOp] at h
    cases h
    exact inv_passive s _ hI rfl rfl (fun k => rfl)
      (fun k d2 hd2 => hI.ids_len k d2 hd2) (fun k i => rfl) (fun a => rfl) (fun a => rfl)
  | set_lock a t id => exact set_lock_inv a t id s s1 hI h

lemma inv_new (t0 : Instant) (rv : Dec) (iv : Int) (dc : Bool) (mx : Int) :
    Inv (Staking.new t0 rv iv dc mx) := by
  refine ⟨?_, ?_, ?_, ?_, ?_⟩
  · intro k hk
    simp [Staking.new] at hk
  · intro k d hd
    simp [Staking.new] at hd
  · simp [Staking.new]
  · intro a ha
    simp [Staking.new] at ha
  · intro i hi
    simp [Staking.new] at hi

lemma runFrom_inv (tr : List TimedOp) : ∀ (s s2 : Staking), Inv s →
    runFrom s tr = some s2 → Inv s2 := by
  induction tr with
  | nil =>
    intro s s2 hI hrun
    cases hrun
    exact hI
  | cons top rest ih =>
    obtain ⟨t, o⟩ := top
    intro s s2 hI hrun
    rw [runFrom] at hrun
    cases ha : applyOp t o s with
    | none =>
      rw [ha] at hrun
      cases hrun
    | some sm =>
      rw [ha] at hrun
      exact ih sm s2 (applyOp_inv t o s sm hI ha) hrun

/-- C8: starting from a fresh component, after every operation of any
successful sequence, the sum over all existing positions of amounts_staked
at each registered asset index equals that asset's aggregate staked_amount.
A repeated add_stakable cannot disturb the invariant because its insert
over an existing address would drop the stored unit's vault and rewards
store, which aborts the transaction, so the registry stays duplicate-free. -/
theorem C8_conservation (t0 : Instant) (rv : Dec) (iv : Int) (dc : Bool) (mx : Int)
    (tr : List TimedOp) (s2 : Staking)
    (hrun : runFrom (Staking.new t0 rv iv dc mx) tr = some s2) :
    conserved s2 :=
  (runFrom_inv tr (Staking.new t0 rv iv dc mx) s2 (inv_new t0 rv iv dc mx) hrun).cons

/-- Base component for the C8 run: created at time 0 with a 7 day interval. -/
def c8base : Staking := Staking.new 0 (decOf 1000) 7 false 100

/-- A run that registers asset 1, opens a position, stakes 350 into it, and
starts unstaking 100 of it into an unstake receipt. -/
def c8good : List TimedOp :=
  [(0, Op.add_stakable 1 (decOf 1) ⟨0, 0⟩),
   (0, Op.create_id),
   (50, Op.stake 1 (some (decOf 350)) 1 none),
   (55, Op.start_unstake 1 1 (decOf 100) false false)]

/-- The state after the c8good run. -/
def c8w : Staking := (runFrom c8base c8good).getD c8base

theorem C8_conservation_witness : conserved c8w :=
  C8_conservation 0 (decOf 1000) 7 false 100 c8good c8w rfl

end staking
